import Mathlib

/-!
Verification of the flask-swagger engine (`flask_swagger.py`).

The development shallowly embeds the data model and the three core
components of the source:

* `_extract_definitions` (the schema-definition extractor), embedded as
  `exList`/`exItem` with an explicit fuel argument standing in for the
  Python call stack (the fuel is always instantiated with a bound that
  the structural size of the input justifies, see `extract_definitions`);
* `_parse_docstring`, embedded as `parse_docstring` over character lists
  (Python strings are sequences of code points; the YAML loader applied to
  the fragment text is an external collaborator, so the embedding returns
  the exact text that the source hands to it);
* `swagger` (the spec assembler), embedded as `swagger` over an abstract
  route enumeration: the host framework's routing table, the docstring
  reader and the YAML loader are external collaborators, so each handler
  is represented by the already-parsed triple that `_parse_docstring`
  returns for it, exactly as the assembler consumes it.

Python dictionaries are embedded as insertion-ordered association lists
with the source's mutation discipline made explicit: assignment replaces
the first matching key in place and otherwise appends, deletion removes
the binding, `update` folds assignments left to right.  The dynamic
module lookup done by `_definition_from_jsonschema` is represented by an
injected registry function (module name and attribute name to schema
object); the source's behaviour on inputs where it would raise an
exception (non-mapping entries, non-string reference values) is modelled
as leaving the offending entry untouched.
-/

/-- A JSON/YAML-like value, as produced by `yaml.load` in the source.
Objects are insertion-ordered association lists, matching Python dicts. -/
inductive Json where
  | null : Json
  | bool : Bool → Json
  | num : Int → Json
  | str : String → Json
  | arr : List Json → Json
  | obj : List (String × Json) → Json
  deriving Repr

abbrev JDict := List (String × Json)

/-- `d.get(k)`: first binding of `k`, if any. -/
def dGet (d : JDict) (k : String) : Option Json :=
  match d with
  | [] => none
  | (k', v) :: rest => if k' = k then some v else dGet rest k

/-- `d[k] = v`: replace the first binding of `k` in place, else append. -/
def dSet (d : JDict) (k : String) (v : Json) : JDict :=
  match d with
  | [] => [(k, v)]
  | (k', v') :: rest => if k' = k then (k, v) :: rest else (k', v') :: dSet rest k v

/-- `del d[k]`: remove the first binding of `k`. -/
def dDel (d : JDict) (k : String) : JDict :=
  match d with
  | [] => []
  | (k', v') :: rest => if k' = k then rest else (k', v') :: dDel rest k

/-- `k in d`: key membership. -/
def containsKey (d : JDict) (k : String) : Bool :=
  match d with
  | [] => false
  | (k', _) :: rest => k' = k || containsKey rest k

/-- `d.update(src)`: assign every binding of `src` into `d`, left to right. -/
def dUpdate (d : JDict) (src : JDict) : JDict :=
  src.foldl (fun acc kv => dSet acc kv.1 kv.2) d

/-- View a value as a mapping; non-mappings (on which the source would
raise) are read as empty. -/
def asObj (v : Json) : JDict :=
  match v with
  | .obj o => o
  | _ => []

/-- The `defaultdict(dict)` read: `table[k]` as a mapping. -/
def dGetObj (t : JDict) (k : String) : JDict :=
  asObj ((dGet t k).getD .null)

/-- Keys of an association list. -/
def dKeys (d : JDict) : List String := d.map Prod.fst

@[simp] theorem dKeys_nil : dKeys [] = [] := rfl

@[simp] theorem dKeys_cons (k : String) (v : Json) (d : JDict) :
    dKeys ((k, v) :: d) = k :: dKeys d := rfl

@[simp] theorem dGet_nil (k : String) : dGet [] k = none := rfl

@[simp] theorem dGet_cons (k k' : String) (v : Json) (rest : JDict) :
    dGet ((k', v) :: rest) k = if k' = k then some v else dGet rest k := rfl

@[simp] theorem dSet_nil (k : String) (v : Json) : dSet [] k v = [(k, v)] := rfl

theorem dGet_dSet_same (d : JDict) (k : String) (v : Json) :
    dGet (dSet d k v) k = some v := by
  induction d with
  | nil => simp [dSet]
  | cons kv rest ih =>
    obtain ⟨k', v'⟩ := kv
    simp only [dSet]
    by_cases h : k' = k
    · rw [if_pos h]
      simp
    · rw [if_neg h]
      simp only [dGet, if_neg h]
      exact ih

theorem dGet_dSet_diff (d : JDict) (k k₂ : String) (v : Json) (hk : k ≠ k₂) :
    dGet (dSet d k v) k₂ = dGet d k₂ := by
  induction d with
  | nil => simp [dSet, dGet, hk]
  | cons kv rest ih =>
    obtain ⟨k', v'⟩ := kv
    simp only [dSet]
    by_cases h : k' = k
    · rw [if_pos h]
      subst h
      simp only [dGet, if_neg hk]
    · rw [if_neg h]
      simp only [dGet]
      by_cases h2 : k' = k₂
      · rw [if_pos h2, if_pos h2]
      · rw [if_neg h2, if_neg h2]
        exact ih

theorem dGet_dDel_diff (d : JDict) (k k₂ : String) (hk : k ≠ k₂) :
    dGet (dDel d k) k₂ = dGet d k₂ := by
  induction d with
  | nil => simp [dDel]
  | cons kv rest ih =>
    obtain ⟨k', v'⟩ := kv
    simp only [dDel]
    by_cases h : k' = k
    · rw [if_pos h]
      subst h
      simp only [dGet, if_neg hk]
    · rw [if_neg h]
      simp only [dGet]
      by_cases h2 : k' = k₂
      · rw [if_pos h2, if_pos h2]
      · rw [if_neg h2, if_neg h2]
        exact ih

theorem dGet_eq_none_of_not_mem (d : JDict) (k : String) (h : k ∉ dKeys d) :
    dGet d k = none := by
  induction d with
  | nil => rfl
  | cons kv rest ih =>
    obtain ⟨k', v'⟩ := kv
    simp only [dKeys_cons, List.mem_cons] at h
    push_neg at h
    have hne : k' ≠ k := fun hEq => h.1 hEq.symm
    simp only [dGet, if_neg hne]
    exact ih h.2

theorem dGet_dDel_same (d : JDict) (k : String) (hnd : (dKeys d).Nodup) :
    dGet (dDel d k) k = none := by
  induction d with
  | nil => rfl
  | cons kv rest ih =>
    obtain ⟨k', v'⟩ := kv
    simp only [dKeys_cons, List.nodup_cons] at hnd
    simp only [dDel]
    by_cases h : k' = k
    · rw [if_pos h]
      subst h
      exact dGet_eq_none_of_not_mem rest k' hnd.1
    · rw [if_neg h]
      simp only [dGet, if_neg h]
      exact ih hnd.2

theorem dSet_dSet_same (d : JDict) (k : String) (v w : Json) :
    dSet (dSet d k v) k w = dSet d k w := by
  induction d with
  | nil => simp [dSet]
  | cons kv rest ih =>
    obtain ⟨k', v'⟩ := kv
    by_cases h : k' = k
    · subst h
      simp [dSet]
    · simp [dSet, h, ih]

theorem dSet_eq_of_dGet (d : JDict) (k : String) (v : Json) (h : dGet d k = some v) :
    dSet d k v = d := by
  induction d with
  | nil => simp [dGet] at h
  | cons kv rest ih =>
    obtain ⟨k', v'⟩ := kv
    simp only [dGet] at h
    simp only [dSet]
    by_cases hk : k' = k
    · rw [if_pos hk] at h ⊢
      rw [Option.some_inj] at h
      subst hk
      rw [h]
    · rw [if_neg hk] at h ⊢
      rw [ih h]

theorem dKeys_dSet (d : JDict) (k : String) (v : Json) :
    dKeys (dSet d k v) = if k ∈ dKeys d then dKeys d else dKeys d ++ [k] := by
  induction d with
  | nil => simp [dSet]
  | cons kv rest ih =>
    obtain ⟨k', v'⟩ := kv
    simp only [dSet]
    by_cases h : k' = k
    · rw [if_pos h]
      subst h
      simp
    · rw [if_neg h]
      simp only [dKeys_cons, List.mem_cons, ih]
      have h2 : ¬(k = k') := fun hEq => h hEq.symm
      by_cases hm : k ∈ dKeys rest
      · simp [hm, h2]
      · simp [hm, h2]

theorem mem_dKeys_dSet (d : JDict) (k : String) (v : Json) :
    k ∈ dKeys (dSet d k v) := by
  rw [dKeys_dSet]
  by_cases h : k ∈ dKeys d <;> simp [h]

theorem mem_dKeys_dSet_of_mem (d : JDict) (k k₂ : String) (v : Json)
    (h : k₂ ∈ dKeys d) : k₂ ∈ dKeys (dSet d k v) := by
  rw [dKeys_dSet]
  by_cases hm : k ∈ dKeys d <;> simp [hm, h]

theorem dSet_comm (d : JDict) (k₁ k₂ : String) (v₁ v₂ : Json)
    (hne : k₁ ≠ k₂) (hmem : k₁ ∈ dKeys d) :
    dSet (dSet d k₁ v₁) k₂ v₂ = dSet (dSet d k₂ v₂) k₁ v₁ := by
  induction d with
  | nil => simp [dKeys] at hmem
  | cons kv rest ih =>
    obtain ⟨k', v'⟩ := kv
    by_cases h1 : k' = k₁
    · subst h1
      simp [dSet, hne]
    · by_cases h2 : k' = k₂
      · subst h2
        simp [dSet, h1]
      · simp only [dKeys_cons, List.mem_cons] at hmem
        rcases hmem with hmem | hmem
        · exact absurd hmem.symm h1
        · simp [dSet, h1, h2, ih hmem]

/-! ### String helpers

Python string operations used by the extractor, modelled over character
lists (`String.toList` / `String.mk` mediate).  `findSub` is `str.find`
restricted to a needle that is present or absent; `importTail` is
`ref.split("import/")[1]`, the text strictly between the first marker
occurrence and the next one (or the end). -/

/-- First index at which `pat` occurs as a contiguous sublist, like
Python `str.find` (with `none` for `-1`). -/
def findSub (l pat : List Char) : Option Nat :=
  if pat.isPrefixOf l then some 0
  else
    match l with
    | [] => none
    | _ :: t => (findSub t pat).map (· + 1)

def markerL : List Char := "import/".toList

/-- `"import/" in ref`. -/
def hasMarker (s : String) : Bool := (findSub s.toList markerL).isSome

/-- `ref.split("import/")[1]`: the dotted module path of an import-style
reference. -/
def importTail (s : String) : String :=
  match findSub s.toList markerL with
  | some i =>
      let after := s.toList.drop (i + markerL.length)
      match findSub after markerL with
      | some j => ⟨after.take j⟩
      | none => ⟨after⟩
  | none => ""

/-- Python `str.split(sep)` for a single-character separator. -/
def splitOnChar (c : Char) : List Char → List (List Char)
  | [] => [[]]
  | x :: xs =>
      let r := splitOnChar c xs
      if x = c then [] :: r
      else
        match r with
        | h :: t => (x :: h) :: t
        | [] => [[x]]

/-- `module_path.split('.')`. -/
def dotSplit (s : String) : List String :=
  (splitOnChar '.' s.toList).map (fun l => ⟨l⟩)

/-- `'.'.flatten(parts)`. -/
def dotJoin : List String → String
  | [] => ""
  | [x] => x
  | x :: xs => x ++ "." ++ dotJoin xs

/-- `'.'.flatten(parts[:-1])`: the module component of an import path. -/
def importModule (r : String) : String :=
  dotJoin (dotSplit (importTail r)).dropLast

/-- `parts[-1]`: the attribute component of an import path. -/
def importName (r : String) : String :=
  (dotSplit (importTail r)).getLastD ""

/-! ### The schema-definition extractor (`_extract_definitions`)

The injected registry stands for `_definition_from_jsonschema`'s
dynamic lookup: it maps a module path and attribute name to the externally
registered schema object. -/

abbrev Registry := String → String → JDict

/-- The text form under which the source uses a schema identifier
(`"...".format(schema_id)` and as a `definitions` key).  Identifiers
whose value is a container (on which the claims never touch; the source
would interpolate Python's repr) are not modelled and read as absent,
like a `None` identifier. -/
def jKeyStr (v : Json) : Option String :=
  match v with
  | .str s => some s
  | .num n => some (toString n)
  | .bool b => some (if b then "True" else "False")
  | _ => none

/-- `schema.get("id")` combined with the only uses the source makes of
a present identifier. -/
def idOf (s : JDict) : Option String :=
  match dGet s "id" with
  | some v => jKeyStr v
  | none => none

/-- `schema.get("$ref") is not None and "import/" in schema.get("$ref")`. -/
def isImportSchema (s : JDict) : Bool :=
  match dGet s "$ref" with
  | some (.str r) => hasMarker r
  | _ => false

/-- When an entry triggers the import-style branch, its fields, its
schema's fields and the reference string. -/
def importInfo (item : Json) : Option (JDict × JDict × String) :=
  match item with
  | .obj f =>
      match dGet f "schema" with
      | some (.obj s) =>
          match dGet s "$ref" with
          | some (.str r) => if hasMarker r then some (f, s, r) else none
          | _ => none
      | _ => none
  | _ => none

/-- The import-style branch: rewrite the `$ref` in place, resolve the
registry object, stamp its `id` with the dotted path. -/
def resolveImport (reg : Registry) (f s : JDict) (r : String) : Json × Json :=
  let mp := importTail r
  let s2 := dSet s "$ref" (.str ("#/definitions/" ++ mp))
  let f2 := dSet f "schema" (.obj s2)
  let d := dSet (reg (importModule r) (importName r)) "id" (.str mp)
  (.obj f2, .obj d)

/-- Reattach property names to the recursively processed property
values (`properties.values()` is a view: the source mutates the value
objects in place, keys and their order never change). -/
def rekey (p : JDict) (vals : List Json) : JDict :=
  List.zipWith (fun kv v => (kv.1, v)) p vals

mutual

/-- `_extract_definitions(alist, level)`.  Returns the entry list after
in-place mutation, the hoisted definition objects, and whether the
branch for import-style references returned early (the hoisted list is then
exactly the single resolved object and later entries are untouched).
The fuel argument stands for the call stack; every theorem assumes a
structurally sufficient bound. -/
def exList (reg : Registry) : Nat → Nat → List Json → List Json × List Json × Bool
  | 0, _, l => (l, [], false)
  | _ + 1, _, [] => ([], [], false)
  | fuel + 1, level, item :: rest =>
      match importInfo item with
      | some (f, s, r) =>
          let fd := resolveImport reg f s r
          (fd.1 :: rest, [fd.2], true)
      | none =>
          let itr := exItem reg fuel level item
          let rd := exList reg fuel level rest
          (itr.1 :: rd.1, if rd.2.2 then rd.2.1 else itr.2 ++ rd.2.1, rd.2.2)

/-- One non-import entry of the extractor's loop: hoist an identified
schema, rewrite the entry according to the recursion level, recurse into
`schema.properties`, `schema.items.schema` and the entry's own
`items.schema` (each read from the entry as already mutated, matching
the source's in-place order). -/
def exItem (reg : Registry) : Nat → Nat → Json → Json × List Json
  | 0, _, it => (it, [])
  | fuel + 1, level, .obj f =>
      let sp :=
        match dGet f "schema" with
        | some (.obj s) =>
            let a :=
              match dGet s "properties" with
              | some (.obj p) =>
                  let r := exList reg fuel (level + 1) (p.map Prod.snd)
                  (dSet s "properties" (.obj (rekey p r.1)), r.2.1)
              | _ => (s, [])
            let b :=
              match dGet a.1 "items" with
              | some (.obj it) =>
                  if containsKey it "schema" then
                    let r := exList reg fuel (level + 1) [.obj it]
                    (dSet a.1 "items" (r.1.headD (.obj it)), r.2.1)
                  else (a.1, [])
              | _ => (a.1, [])
            match idOf s with
            | some sid =>
                let refstr := "#/definitions/" ++ sid
                if level == 0 then
                  (dSet f "schema" (.obj [("$ref", .str refstr)]),
                   Json.obj b.1 :: (a.2 ++ b.2))
                else
                  (dDel (dSet f "$ref" (.str refstr)) "schema",
                   Json.obj b.1 :: (a.2 ++ b.2))
            | none => (dSet f "schema" (.obj b.1), a.2 ++ b.2)
        | _ => (f, [])
      let fb :=
        match dGet sp.1 "items" with
        | some (.obj it2) =>
            if containsKey it2 "schema" then
              let r := exList reg fuel (level + 1) [.obj it2]
              (dSet sp.1 "items" (r.1.headD (.obj it2)), r.2.1)
            else (sp.1, [])
        | _ => (sp.1, [])
      (.obj fb.1, sp.2 ++ fb.2)
  | _ + 1, _, it => (it, [])

end

/-- Recursion into `schema.properties` values (one level deeper), as a
named view of the corresponding chunk of `exItem`. -/
def exProps (reg : Registry) (fuel level : Nat) (s : JDict) : JDict × List Json :=
  match dGet s "properties" with
  | some (.obj p) =>
      let r := exList reg fuel (level + 1) (p.map Prod.snd)
      (dSet s "properties" (.obj (rekey p r.1)), r.2.1)
  | _ => (s, [])

/-- `_extract_array_defs(source)`: recursion into `items.schema` (one
level deeper), with the in-place mutation of `items` made explicit. -/
def exArray (reg : Registry) (fuel level : Nat) (source : JDict) : JDict × List Json :=
  match dGet source "items" with
  | some (.obj it) =>
      if containsKey it "schema" then
        let r := exList reg fuel (level + 1) [.obj it]
        (dSet source "items" (r.1.headD (.obj it)), r.2.1)
      else (source, [])
  | _ => (source, [])

/-- The `schema`-key processing of one entry: hoist and rewrite if an
identifier is present, after recursing into the schema's properties and
array items. -/
def exSchemaStep (reg : Registry) (fuel level : Nat) (f : JDict) : JDict × List Json :=
  match dGet f "schema" with
  | some (.obj s) =>
      let a := exProps reg fuel level s
      let b := exArray reg fuel level a.1
      match idOf s with
      | some sid =>
          let refstr := "#/definitions/" ++ sid
          if level == 0 then
            (dSet f "schema" (.obj [("$ref", .str refstr)]),
             Json.obj b.1 :: (a.2 ++ b.2))
          else
            (dDel (dSet f "$ref" (.str refstr)) "schema",
             Json.obj b.1 :: (a.2 ++ b.2))
      | none => (dSet f "schema" (.obj b.1), a.2 ++ b.2)
  | _ => (f, [])

/-- `exItem` on a mapping is the schema step followed by the entry's own
array-items step. -/
theorem exItem_obj (reg : Registry) (fuel level : Nat) (f : JDict) :
    exItem reg (fuel + 1) level (.obj f)
      = (Json.obj (exArray reg fuel level (exSchemaStep reg fuel level f).1).1,
         (exSchemaStep reg fuel level f).2
           ++ (exArray reg fuel level (exSchemaStep reg fuel level f).1).2) := rfl

/-- `_extract_definitions(alist, level)`: the mutated entry list and the
hoisted definitions.  The fuel models the Python call stack; every
theorem below assumes `sizeOf alist ≤ fuel`, which the recursion depth
of the source always satisfies (each recursive call strictly descends
into the entry structure). -/
def extract_definitions (reg : Registry) (fuel : Nat) (alist : List Json)
    (level : Nat := 0) : List Json × List Json :=
  let r := exList reg fuel level alist
  (r.1, r.2.1)

/-! ### The documentation-block parser (`_parse_docstring`)

Modelled over character lists (Python strings index by code point).  The
input is the text `inspect.getdoc` returns (`[]` for a missing or empty
docstring, which Python treats as falsy); the `from_file_keyword`
redirection reads the filesystem and is an external collaborator, so the
model covers the default `from_file_keyword=None` configuration.  The
third component is the exact text the source hands to the external YAML
loader (`None` when the source never invokes it). -/

/-- `_sanitize`: replace every line feed by an inline break marker. -/
def sanitize : List Char → List Char
  | [] => []
  | c :: rest => (if c = '\n' then "<br/>".toList else [c]) ++ sanitize rest

/-- `_parse_docstring(obj, process_doc, None)`: summary, description and
the text submitted to the YAML loader. -/
def parse_docstring (process : List Char → List Char) (fullDoc : List Char) :
    Option (List Char) × Option (List Char) × Option (List Char) :=
  if fullDoc = [] then (none, none, none)
  else
    match findSub fullDoc ['\n'] with
    | some lf =>
        let firstLine := process (fullDoc.take lf)
        match findSub (fullDoc.drop (lf + 1)) "---".toList with
        | some ys =>
            (some firstLine,
             some (process ((fullDoc.drop (lf + 1)).take (ys - 1))),
             some (fullDoc.drop (lf + ys)))
        | none => (some firstLine, some (process (fullDoc.drop (lf + 1))), none)
    | none => (some fullDoc, none, none)

/-! ### The spec assembler (`swagger`)

The route enumerator (`url_parser`) and the docstring reader are
external collaborators: the assembler is parameterised by the
enumeration it would return — a list of (url rule, list of (verb,
handler)) pairs where each handler is represented by the triple
`_parse_docstring` yields for it (summary and description already
sanitized, the fragment already loaded; `none` when no fragment is
present).  Response keys are already text in the model, so the source's
`str(key)` coercion is the identity here. -/

/-- The `_parse_docstring` result for one handler. -/
structure MethodDoc where
  summary : Option String
  description : Option String
  swag : Option JDict

def OPTIONAL_FIELDS : List String :=
  ["tags", "consumes", "produces", "schemes", "security",
   "deprecated", "operationId", "externalDocs"]

/-- Python `None`-or-string as a JSON value. -/
def jOpt : Option String → Json
  | some s => .str s
  | none => .null

/-- `swag.get('parameters', [])` (a non-list value would make the source
raise while iterating; read as empty). -/
def swagParams (sw : JDict) : List Json :=
  match dGet sw "parameters" with
  | some (.arr l) => l
  | _ => []

/-- `swag.get('definitions', [])`. -/
def swagDefsList (sw : JDict) : List Json :=
  match dGet sw "definitions" with
  | some (.arr l) => l
  | _ => []

/-- `swag.get('responses', {})`. -/
def swagResponses (sw : JDict) : JDict :=
  match dGet sw "responses" with
  | some (.obj r) => r
  | _ => []

/-- One verb's operation record plus the definition objects hoisted from
the fragment's `definitions`, `parameters` and `responses`, in that
order. -/
def buildOperation (reg : Registry) (fuel : Nat) (doc : MethodDoc) (sw : JDict) :
    JDict × List Json :=
  let dr := exList reg fuel 0 (swagDefsList sw)
  let pr := exList reg fuel 0 (swagParams sw)
  let params := pr.1
  let resp := swagResponses sw
  let rr := exList reg fuel 0 (resp.map Prod.snd)
  let responses := rekey resp rr.1
  let defs := dr.2.1 ++ pr.2.1 ++ rr.2.1
  let op0 : JDict := [("summary", jOpt doc.summary),
                      ("description", jOpt doc.description),
                      ("responses", .obj responses)]
  let op1 := if params.length > 0 then dSet op0 "parameters" (.arr params) else op0
  let op2 := OPTIONAL_FIELDS.foldl
    (fun op key =>
      match dGet sw key with
      | some v => dSet op key v
      | none => op) op1
  (op2, defs)

/-- `definitions[def_id].update(definition)` after `definition.pop('id')`
(`definitions` is a `defaultdict(dict)`); definitions lacking an
identifier are skipped. -/
def mergeDef (table : JDict) (d : Json) : JDict :=
  match d with
  | .obj dd =>
      match dGet dd "id" with
      | some idv =>
          match jKeyStr idv with
          | some key =>
              dSet table key (.obj (dUpdate (asObj ((dGet table key).getD .null)) (dDel dd "id")))
          | none => table
      | none => table
  | _ => table

/-- The body of the per-verb loop: accumulate this verb's operation and
merge its hoisted definitions. -/
def methodFold (reg : Registry) (fuel : Nat) (st : JDict × JDict)
    (vm : String × MethodDoc) : JDict × JDict :=
  match vm.2.swag with
  | none => st
  | some sw =>
      let od := buildOperation reg fuel vm.2 sw
      (dSet st.1 vm.1 (.obj od.1), od.2.foldl mergeDef st.2)

/-- The body of the per-route loop: build the route's operation map and,
when non-empty, merge it into `paths[rule]`. -/
def endpointFold (reg : Registry) (fuel : Nat) (ruleParser : String → String)
    (st : JDict × JDict) (ep : String × List (String × MethodDoc)) : JDict × JDict :=
  let rule := ruleParser ep.1
  let od := ep.2.foldl (methodFold reg fuel) ([], st.2)
  if od.1.isEmpty then (st.1, od.2)
  else
    (dSet st.1 rule (.obj (dUpdate (asObj ((dGet st.1 rule).getD .null)) od.1)), od.2)

/-- The hard-coded skeleton of the output document. -/
def swaggerBase : JDict :=
  [("swagger", .str "2.0"),
   ("info", .obj [("version", .str "0.0.0"), ("title", .str "Cool product name")])]

/-- `output.update(template)` (or the bare skeleton with no template). -/
def templateSeed (template : Option JDict) : JDict :=
  match template with
  | some t => dUpdate swaggerBase t
  | none => swaggerBase

/-- `swagger(app, url_parser, rule_parser, process_doc, prefix,
from_file_keyword, template)`, over the abstract route enumeration. -/
def swagger (reg : Registry) (fuel : Nat) (ruleParser : String → String)
    (endpoints : List (String × List (String × MethodDoc)))
    (template : Option JDict) : JDict :=
  let output := templateSeed template
  let st := endpoints.foldl (endpointFold reg fuel ruleParser)
    (dGetObj output "paths", dGetObj output "definitions")
  dSet (dSet output "paths" (.obj st.1)) "definitions" (.obj st.2)

/-! ### Update algebra

`dUpdate` is Python `dict.update`; the central fact below
(`dUpdate_dUpdate_self`) is that replaying the same assignment sequence
over its own result changes nothing — the engine of the template
round-trip property. -/

@[simp] theorem dUpdate_nil_right (d : JDict) : dUpdate d [] = d := rfl

theorem dUpdate_cons (d : JDict) (k : String) (v : Json) (b : JDict) :
    dUpdate d ((k, v) :: b) = dUpdate (dSet d k v) b := rfl

theorem dUpdate_append (d a b : JDict) :
    dUpdate d (a ++ b) = dUpdate (dUpdate d a) b := by
  simp [dUpdate, List.foldl_append]

theorem dGet_dUpdate_not_mem (d b : JDict) (k : String) (h : k ∉ dKeys b) :
    dGet (dUpdate d b) k = dGet d k := by
  induction b generalizing d with
  | nil => rfl
  | cons kv b ih =>
    obtain ⟨k₁, v₁⟩ := kv
    simp only [dKeys_cons, List.mem_cons] at h
    push_neg at h
    rw [dUpdate_cons, ih _ h.2, dGet_dSet_diff _ _ _ _ (fun hEq => h.1 hEq.symm)]

theorem mem_dKeys_dUpdate_of_mem (d b : JDict) (k : String) (h : k ∈ dKeys d) :
    k ∈ dKeys (dUpdate d b) := by
  induction b generalizing d with
  | nil => exact h
  | cons kv b ih =>
    obtain ⟨k₁, v₁⟩ := kv
    rw [dUpdate_cons]
    exact ih _ (mem_dKeys_dSet_of_mem _ _ _ _ h)

theorem dUpdate_dSet_overwrite (d b : JDict) (k : String) (v : Json)
    (hd : k ∈ dKeys d) (hb : k ∈ dKeys b) :
    dUpdate (dSet d k v) b = dUpdate d b := by
  induction b generalizing d with
  | nil => simp [dKeys] at hb
  | cons kv b ih =>
    obtain ⟨k₁, v₁⟩ := kv
    rw [dUpdate_cons, dUpdate_cons]
    by_cases hk : k₁ = k
    · subst hk
      rw [dSet_dSet_same]
    · simp only [dKeys_cons, List.mem_cons] at hb
      rcases hb with hb | hb
      · exact absurd hb.symm hk
      · rw [dSet_comm _ _ _ _ _ (fun hEq => hk hEq.symm) hd]
        exact ih _ (mem_dKeys_dSet_of_mem _ _ _ _ hd) hb

theorem dUpdate_dUpdate_self (d b : JDict) :
    dUpdate (dUpdate d b) b = dUpdate d b := by
  induction b generalizing d with
  | nil => rfl
  | cons kv b ih =>
    obtain ⟨k, v⟩ := kv
    rw [dUpdate_cons, dUpdate_cons]
    by_cases hk : k ∈ dKeys b
    · rw [dUpdate_dSet_overwrite _ _ _ _
        (mem_dKeys_dUpdate_of_mem _ _ _ (mem_dKeys_dSet _ _ _)) hk]
      exact ih _
    · rw [dSet_eq_of_dGet _ _ _ (by rw [dGet_dUpdate_not_mem _ _ _ hk, dGet_dSet_same])]
      exact ih _

/-! ### Keyed-merge steps

Both accumulation loops of the assembler have the same shape: look up a
key in a `defaultdict(dict)` table and `update` the entry with a payload
mapping.  `applyOp` captures one such step (`none` is a skipped step);
`applyFold_replay` shows a table that already absorbed an operation
sequence absorbs it again without change. -/

/-- `table[k].update(payload)` for the operation `some (k, payload)`. -/
def applyOp (t : JDict) : Option (String × JDict) → JDict
  | none => t
  | some kb => dSet t kb.1 (.obj (dUpdate (dGetObj t kb.1) kb.2))

@[simp] theorem applyOp_none (t : JDict) : applyOp t none = t := rfl

theorem applyOp_some (t : JDict) (k : String) (b : JDict) :
    applyOp t (some (k, b)) = dSet t k (.obj (dUpdate (dGetObj t k) b)) := rfl

/-- The payloads an operation sequence directs at key `k`, in order. -/
def bodiesAt (k : String) (ops : List (Option (String × JDict))) : List JDict :=
  ops.filterMap (fun op =>
    match op with
    | some kb => if kb.1 = k then some kb.2 else none
    | none => none)

@[simp] theorem bodiesAt_nil (k : String) : bodiesAt k [] = [] := rfl

theorem bodiesAt_cons_none (k : String) (ops : List (Option (String × JDict))) :
    bodiesAt k (none :: ops) = bodiesAt k ops := rfl

theorem bodiesAt_cons_same (k : String) (b : JDict) (ops : List (Option (String × JDict))) :
    bodiesAt k (some (k, b) :: ops) = b :: bodiesAt k ops := by
  simp [bodiesAt]

theorem bodiesAt_cons_diff (k k₂ : String) (b : JDict) (hne : k₂ ≠ k)
    (ops : List (Option (String × JDict))) :
    bodiesAt k (some (k₂, b) :: ops) = bodiesAt k ops := by
  simp [bodiesAt, hne]

theorem mem_dKeys_of_dGet (d : JDict) (k : String) (v : Json) (h : dGet d k = some v) :
    k ∈ dKeys d := by
  by_contra hm
  rw [dGet_eq_none_of_not_mem _ _ hm] at h
  exact Option.noConfusion h

theorem dGetObj_dSet_same (t : JDict) (k : String) (x : JDict) :
    dGetObj (dSet t k (.obj x)) k = x := by
  simp [dGetObj, dGet_dSet_same, asObj]

theorem dGetObj_dSet_diff (t : JDict) (k k₂ : String) (v : Json) (hne : k ≠ k₂) :
    dGetObj (dSet t k v) k₂ = dGetObj t k₂ := by
  simp [dGetObj, dGet_dSet_diff _ _ _ _ hne]

theorem dGet_applyFold_not_mem (t : JDict) (k : String)
    (ops : List (Option (String × JDict))) (h : bodiesAt k ops = []) :
    dGet (ops.foldl applyOp t) k = dGet t k := by
  induction ops generalizing t with
  | nil => rfl
  | cons op ops ih =>
    match op with
    | none =>
        rw [bodiesAt_cons_none] at h
        exact ih _ h
    | some (k₂, b) =>
        by_cases hk : k₂ = k
        · subst hk
          rw [bodiesAt_cons_same] at h
          exact absurd h (List.cons_ne_nil _ _)
        · rw [bodiesAt_cons_diff _ _ _ hk] at h
          rw [List.foldl_cons, ih _ h]
          exact dGet_dSet_diff _ _ _ _ hk

theorem dGet_applyFold_mem (t : JDict) (k : String)
    (ops : List (Option (String × JDict))) (h : bodiesAt k ops ≠ []) :
    dGet (ops.foldl applyOp t) k =
      some (.obj ((bodiesAt k ops).foldl dUpdate (dGetObj t k))) := by
  induction ops generalizing t with
  | nil => exact absurd rfl h
  | cons op ops ih =>
    match op with
    | none =>
        rw [bodiesAt_cons_none] at h ⊢
        exact ih _ h
    | some (k₂, b) =>
        by_cases hk : k₂ = k
        · subst hk
          rw [bodiesAt_cons_same, List.foldl_cons, List.foldl_cons]
          show dGet (ops.foldl applyOp (dSet t k₂ (.obj (dUpdate (dGetObj t k₂) b)))) k₂ = _
          by_cases hrest : bodiesAt k₂ ops = []
          · rw [dGet_applyFold_not_mem _ _ _ hrest, hrest, dGet_dSet_same, List.foldl_nil]
          · rw [ih _ hrest, dGetObj_dSet_same]
        · rw [bodiesAt_cons_diff _ _ _ hk] at h ⊢
          rw [List.foldl_cons]
          simp only [applyOp]
          rw [ih _ h, dGetObj_dSet_diff _ _ _ _ hk]

theorem applyFold_tail (L : List (Option (String × JDict))) (Y : JDict) (k : String)
    (x y : JDict) (hY : dGet Y k = some (.obj y))
    (hcond : (bodiesAt k L).foldl dUpdate x = (bodiesAt k L).foldl dUpdate y) :
    L.foldl applyOp (dSet Y k (.obj x)) = L.foldl applyOp Y := by
  induction L generalizing Y x y with
  | nil =>
    simp only [bodiesAt_nil, List.foldl_nil] at hcond
    rw [List.foldl_nil, List.foldl_nil, hcond, dSet_eq_of_dGet _ _ _ hY]
  | cons op L ih =>
    match op with
    | none => exact ih _ _ _ hY (by rwa [bodiesAt_cons_none] at hcond)
    | some (k₂, b) =>
        by_cases hk : k₂ = k
        · subst hk
          rw [bodiesAt_cons_same, List.foldl_cons, List.foldl_cons] at hcond
          rw [List.foldl_cons, List.foldl_cons]
          show L.foldl applyOp
              (dSet (dSet Y k₂ (.obj x)) k₂
                (.obj (dUpdate (dGetObj (dSet Y k₂ (.obj x)) k₂) b))) =
            L.foldl applyOp (dSet Y k₂ (.obj (dUpdate (dGetObj Y k₂) b)))
          rw [dGetObj_dSet_same, dSet_dSet_same]
          have hgo : dGetObj Y k₂ = y := by
            simp [dGetObj, hY, asObj]
          rw [hgo]
          have hY2 : dGet (dSet Y k₂ (.obj (dUpdate y b))) k₂ =
              some (.obj (dUpdate y b)) := dGet_dSet_same _ _ _
          have := ih (dSet Y k₂ (.obj (dUpdate y b))) (dUpdate x b) (dUpdate y b) hY2 hcond
          rwa [dSet_dSet_same] at this
        · rw [bodiesAt_cons_diff _ _ _ hk] at hcond
          have hne : k ≠ k₂ := fun hEq => hk hEq.symm
          rw [List.foldl_cons, List.foldl_cons]
          simp only [applyOp]
          rw [dGetObj_dSet_diff _ _ _ _ hne,
            dSet_comm _ _ _ _ _ hne (mem_dKeys_of_dGet _ _ _ hY)]
          exact ih _ _ _ (by rw [dGet_dSet_diff _ _ _ _ hk, hY]) hcond

theorem foldl_dUpdate_join (x : JDict) (C : List JDict) :
    C.foldl dUpdate x = dUpdate x C.flatten := by
  induction C generalizing x with
  | nil => rfl
  | cons c C ih =>
    rw [List.foldl_cons, ih, List.flatten_cons, dUpdate_append]

theorem applyFold_replay (t : JDict) (L : List (Option (String × JDict))) :
    L.foldl applyOp (L.foldl applyOp t) = L.foldl applyOp t := by
  induction L generalizing t with
  | nil => rfl
  | cons op L ih =>
    match op with
    | none =>
        simp only [List.foldl_cons, applyOp]
        exact ih t
    | some (k, b) =>
        simp only [List.foldl_cons, applyOp]
        set a := dGetObj t k with ha
        set T := dSet t k (.obj (dUpdate a b)) with hT
        set Z := L.foldl applyOp T with hZ
        by_cases hC : bodiesAt k L = []
        · have hgZ : dGet Z k = some (.obj (dUpdate a b)) := by
            rw [hZ, dGet_applyFold_not_mem _ _ _ hC, hT, dGet_dSet_same]
          have hgo : dGetObj Z k = dUpdate a b := by
            rw [dGetObj, hgZ]
            rfl
          rw [hgo, dUpdate_dUpdate_self, dSet_eq_of_dGet _ _ _ hgZ]
          exact ih T
        · have hgT : dGetObj T k = dUpdate a b := by
            rw [hT]
            exact dGetObj_dSet_same _ _ _
          set zk := (bodiesAt k L).foldl dUpdate (dUpdate a b) with hzk
          have hgZ : dGet Z k = some (.obj zk) := by
            rw [hZ, dGet_applyFold_mem _ _ _ hC, hgT, hzk]
          have hgo : dGetObj Z k = zk := by
            rw [dGetObj, hgZ]
            rfl
          rw [hgo]
          have hzkJ : zk = dUpdate a (b ++ (bodiesAt k L).flatten) := by
            rw [hzk, foldl_dUpdate_join, ← dUpdate_append]
          have hcond : (bodiesAt k L).foldl dUpdate (dUpdate zk b)
              = (bodiesAt k L).foldl dUpdate zk := by
            rw [foldl_dUpdate_join, foldl_dUpdate_join]
            calc dUpdate (dUpdate zk b) (bodiesAt k L).flatten
                = dUpdate zk (b ++ (bodiesAt k L).flatten) := (dUpdate_append _ _ _).symm
              _ = dUpdate (dUpdate a (b ++ (bodiesAt k L).flatten))
                    (b ++ (bodiesAt k L).flatten) := by rw [hzkJ]
              _ = dUpdate a (b ++ (bodiesAt k L).flatten) := dUpdate_dUpdate_self _ _
              _ = zk := hzkJ.symm
              _ = dUpdate (dUpdate (dUpdate a b) (bodiesAt k L).flatten)
                    (bodiesAt k L).flatten := by
                  rw [dUpdate_dUpdate_self, ← dUpdate_append, hzkJ]
              _ = dUpdate zk (bodiesAt k L).flatten := by
                  rw [hzk, foldl_dUpdate_join]
          rw [applyFold_tail L Z k (dUpdate zk b) zk hgZ hcond]
          exact ih T

/-! ### Decomposing the assembler

The path loop and the definition merges are state-independent operation
sequences folded by `applyOp`; the lemmas below rewrite `swagger` into
that form. -/

/-- The merge operation a hoisted definition induces on `definitions`. -/
def defOp (d : Json) : Option (String × JDict) :=
  match d with
  | .obj dd =>
      match dGet dd "id" with
      | some idv =>
          match jKeyStr idv with
          | some key => some (key, dDel dd "id")
          | none => none
      | none => none
  | _ => none

theorem mergeDef_eq_applyOp (t : JDict) (d : Json) :
    mergeDef t d = applyOp t (defOp d) := by
  cases d with
  | obj dd =>
      cases hg : dGet dd "id" with
      | none => simp [mergeDef, defOp, hg]
      | some idv =>
          cases hj : jKeyStr idv with
          | none => simp [mergeDef, defOp, hg, hj]
          | some key => simp [mergeDef, defOp, applyOp, dGetObj, hg, hj]
  | null => rfl
  | bool b => rfl
  | num n => rfl
  | str s => rfl
  | arr l => rfl

theorem foldl_mergeDef_eq (t : JDict) (ds : List Json) :
    ds.foldl mergeDef t = (ds.map defOp).foldl applyOp t := by
  induction ds generalizing t with
  | nil => rfl
  | cons d ds ih => rw [List.foldl_cons, List.map_cons, List.foldl_cons,
      mergeDef_eq_applyOp, ih]

/-- The operation-map component of one verb's step. -/
def opStep (reg : Registry) (fuel : Nat) (ops : JDict) (vm : String × MethodDoc) : JDict :=
  match vm.2.swag with
  | none => ops
  | some sw => dSet ops vm.1 (.obj (buildOperation reg fuel vm.2 sw).1)

/-- The definitions one verb hoists. -/
def methodDefs (reg : Registry) (fuel : Nat) (vm : String × MethodDoc) : List Json :=
  match vm.2.swag with
  | none => []
  | some sw => (buildOperation reg fuel vm.2 sw).2

theorem methodFold_eq (reg : Registry) (fuel : Nat) (st : JDict × JDict)
    (vm : String × MethodDoc) :
    methodFold reg fuel st vm =
      (opStep reg fuel st.1 vm,
       ((methodDefs reg fuel vm).map defOp).foldl applyOp st.2) := by
  cases h : vm.2.swag with
  | none => simp [methodFold, opStep, methodDefs, h]
  | some sw => simp [methodFold, opStep, methodDefs, h, foldl_mergeDef_eq]

/-- The operation map discovered for a verb list (independent of any
accumulated state). -/
def methodOps (reg : Registry) (fuel : Nat) (ms : List (String × MethodDoc)) : JDict :=
  ms.foldl (opStep reg fuel) []

/-- The merge operations a verb list directs at `definitions`. -/
def methodDefOps (reg : Registry) (fuel : Nat) (ms : List (String × MethodDoc)) :
    List (Option (String × JDict)) :=
  (ms.map (fun vm => (methodDefs reg fuel vm).map defOp)).flatten

theorem methodFoldl_eq (reg : Registry) (fuel : Nat) (ms : List (String × MethodDoc))
    (ops defs : JDict) :
    ms.foldl (methodFold reg fuel) (ops, defs)
      = (ms.foldl (opStep reg fuel) ops,
         (methodDefOps reg fuel ms).foldl applyOp defs) := by
  induction ms generalizing ops defs with
  | nil => simp [methodDefOps]
  | cons vm ms ih =>
      rw [List.foldl_cons, methodFold_eq, ih]
      simp [methodDefOps, List.foldl_append]

/-- The path-table operation one route induces (`none` when no verb on
the route produced an operation). -/
def pathOp (reg : Registry) (fuel : Nat) (ruleParser : String → String)
    (ep : String × List (String × MethodDoc)) : Option (String × JDict) :=
  let O := methodOps reg fuel ep.2
  if O.isEmpty then none else some (ruleParser ep.1, O)

theorem endpointFold_eq (reg : Registry) (fuel : Nat) (ruleParser : String → String)
    (st : JDict × JDict) (ep : String × List (String × MethodDoc)) :
    endpointFold reg fuel ruleParser st ep
      = (applyOp st.1 (pathOp reg fuel ruleParser ep),
         (methodDefOps reg fuel ep.2).foldl applyOp st.2) := by
  unfold endpointFold
  rw [methodFoldl_eq]
  have hm : List.foldl (opStep reg fuel) [] ep.2 = methodOps reg fuel ep.2 := rfl
  rw [hm]
  by_cases hO : (methodOps reg fuel ep.2).isEmpty
  · simp [pathOp, hO]
  · simp [pathOp, hO, applyOp, dGetObj]

/-- All definition-merge operations of a run, in traversal order. -/
def allDefOps (reg : Registry) (fuel : Nat)
    (endpoints : List (String × List (String × MethodDoc))) :
    List (Option (String × JDict)) :=
  (endpoints.map (fun ep => methodDefOps reg fuel ep.2)).flatten

theorem swaggerFold_eq (reg : Registry) (fuel : Nat) (ruleParser : String → String)
    (endpoints : List (String × List (String × MethodDoc))) (p d : JDict) :
    endpoints.foldl (endpointFold reg fuel ruleParser) (p, d)
      = ((endpoints.map (pathOp reg fuel ruleParser)).foldl applyOp p,
         (allDefOps reg fuel endpoints).foldl applyOp d) := by
  induction endpoints generalizing p d with
  | nil => simp [allDefOps]
  | cons ep eps ih =>
      rw [List.foldl_cons, endpointFold_eq, ih]
      simp [allDefOps, List.foldl_append]

/-- The final `paths` table of a run. -/
def pathsResult (reg : Registry) (fuel : Nat) (ruleParser : String → String)
    (endpoints : List (String × List (String × MethodDoc)))
    (template : Option JDict) : JDict :=
  (endpoints.map (pathOp reg fuel ruleParser)).foldl applyOp
    (dGetObj (templateSeed template) "paths")

/-- The final `definitions` table of a run. -/
def defsResult (reg : Registry) (fuel : Nat)
    (endpoints : List (String × List (String × MethodDoc)))
    (template : Option JDict) : JDict :=
  (allDefOps reg fuel endpoints).foldl applyOp
    (dGetObj (templateSeed template) "definitions")

theorem swagger_unfold (reg : Registry) (fuel : Nat) (ruleParser : String → String)
    (endpoints : List (String × List (String × MethodDoc)))
    (template : Option JDict) :
    swagger reg fuel ruleParser endpoints template
      = dSet (dSet (templateSeed template) "paths"
          (.obj (pathsResult reg fuel ruleParser endpoints template)))
          "definitions" (.obj (defsResult reg fuel endpoints template)) := by
  unfold swagger pathsResult defsResult
  dsimp only
  rw [swaggerFold_eq]

theorem dGet_swagger_paths (reg : Registry) (fuel : Nat) (ruleParser : String → String)
    (endpoints : List (String × List (String × MethodDoc)))
    (template : Option JDict) :
    dGet (swagger reg fuel ruleParser endpoints template) "paths"
      = some (.obj (pathsResult reg fuel ruleParser endpoints template)) := by
  rw [swagger_unfold]
  rw [dGet_dSet_diff _ _ _ _ (by decide), dGet_dSet_same]

theorem dGet_swagger_defs (reg : Registry) (fuel : Nat) (ruleParser : String → String)
    (endpoints : List (String × List (String × MethodDoc)))
    (template : Option JDict) :
    dGet (swagger reg fuel ruleParser endpoints template) "definitions"
      = some (.obj (defsResult reg fuel endpoints template)) := by
  rw [swagger_unfold, dGet_dSet_same]

theorem templateSeed_swagger_none (reg : Registry) (fuel : Nat)
    (ruleParser : String → String)
    (endpoints : List (String × List (String × MethodDoc))) :
    templateSeed (some (swagger reg fuel ruleParser endpoints none))
      = [("swagger", Json.str "2.0"),
         ("info", Json.obj [("version", Json.str "0.0.0"),
                            ("title", Json.str "Cool product name")]),
         ("paths", Json.obj (pathsResult reg fuel ruleParser endpoints none)),
         ("definitions", Json.obj (defsResult reg fuel endpoints none))] := by
  rw [swagger_unfold]
  rfl

/-- C6: regeneration is a round-trip fixed point — a spec document
produced by `swagger` with no template, re-supplied as the template on a
second run over the same route enumeration, yields the same `paths` and
`definitions` sections as the first run. -/
theorem swagger_roundtrip_paths_defs (reg : Registry) (fuel : Nat)
    (ruleParser : String → String)
    (endpoints : List (String × List (String × MethodDoc))) :
    dGet (swagger reg fuel ruleParser endpoints
        (some (swagger reg fuel ruleParser endpoints none))) "paths"
      = dGet (swagger reg fuel ruleParser endpoints none) "paths"
    ∧ dGet (swagger reg fuel ruleParser endpoints
        (some (swagger reg fuel ruleParser endpoints none))) "definitions"
      = dGet (swagger reg fuel ruleParser endpoints none) "definitions" := by
  constructor
  · rw [dGet_swagger_paths, dGet_swagger_paths]
    have h : pathsResult reg fuel ruleParser endpoints
        (some (swagger reg fuel ruleParser endpoints none))
        = pathsResult reg fuel ruleParser endpoints none := by
      unfold pathsResult
      rw [templateSeed_swagger_none]
      have hseed : dGetObj
          [("swagger", Json.str "2.0"),
           ("info", Json.obj [("version", Json.str "0.0.0"),
                              ("title", Json.str "Cool product name")]),
           ("paths", Json.obj (pathsResult reg fuel ruleParser endpoints none)),
           ("definitions", Json.obj (defsResult reg fuel endpoints none))] "paths"
          = pathsResult reg fuel ruleParser endpoints none := rfl
      rw [hseed]
      unfold pathsResult
      exact applyFold_replay _ _
    rw [h]
  · rw [dGet_swagger_defs, dGet_swagger_defs]
    have h : defsResult reg fuel endpoints
        (some (swagger reg fuel ruleParser endpoints none))
        = defsResult reg fuel endpoints none := by
      unfold defsResult
      rw [templateSeed_swagger_none]
      have hseed : dGetObj
          [("swagger", Json.str "2.0"),
           ("info", Json.obj [("version", Json.str "0.0.0"),
                              ("title", Json.str "Cool product name")]),
           ("paths", Json.obj (pathsResult reg fuel ruleParser endpoints none)),
           ("definitions", Json.obj (defsResult reg fuel endpoints none))] "definitions"
          = defsResult reg fuel endpoints none := rfl
      rw [hseed]
      unfold defsResult
      exact applyFold_replay _ _
    rw [h]

theorem dKeys_dSet_nodup (d : JDict) (k : String) (v : Json)
    (h : (dKeys d).Nodup) : (dKeys (dSet d k v)).Nodup := by
  rw [dKeys_dSet]
  by_cases hm : k ∈ dKeys d
  · simpa [hm] using h
  · simp only [hm, if_false]
    rw [List.nodup_append]
    exact ⟨h, List.nodup_singleton _, by simpa using hm⟩

theorem methodOps_keys_nodup (reg : Registry) (fuel : Nat)
    (ms : List (String × MethodDoc)) :
    (dKeys (methodOps reg fuel ms)).Nodup := by
  have h : ∀ ops : JDict, (dKeys ops).Nodup →
      (dKeys (ms.foldl (opStep reg fuel) ops)).Nodup := by
    induction ms with
    | nil => intro ops h; exact h
    | cons vm ms ih =>
        intro ops h
        rw [List.foldl_cons]
        apply ih
        cases hs : vm.2.swag with
        | none => simpa [opStep, hs] using h
        | some sw =>
            simp only [opStep, hs]
            exact dKeys_dSet_nodup _ _ _ h
  exact h [] (by simp)

theorem dGet_dUpdate_some_of_nodup (d b : JDict) (k : String) (v : Json)
    (hnd : (dKeys b).Nodup) (h : dGet b k = some v) :
    dGet (dUpdate d b) k = some v := by
  induction b generalizing d with
  | nil => exact absurd h (by simp)
  | cons kv b ih =>
    obtain ⟨k₁, v₁⟩ := kv
    simp only [dKeys_cons, List.nodup_cons] at hnd
    rw [dUpdate_cons]
    by_cases hk : k₁ = k
    · subst hk
      simp only [dGet_cons, if_pos rfl] at h
      rw [dGet_dUpdate_not_mem _ _ _ hnd.1, dGet_dSet_same]
      exact h
    · simp only [dGet_cons, if_neg hk] at h
      exact ih _ hnd.2 h

theorem dGet_isSome_of_mem (d : JDict) (k : String) (h : k ∈ dKeys d) :
    (dGet d k).isSome := by
  induction d with
  | nil => simp [dKeys] at h
  | cons kv rest ih =>
    obtain ⟨k', v'⟩ := kv
    by_cases hk : k' = k
    · simp [dGet, hk]
    · simp only [dKeys_cons, List.mem_cons] at h
      rcases h with h | h
      · exact absurd h.symm hk
      · simp only [dGet_cons, if_neg hk]
        exact ih h

theorem dGet_none_of_dGet_none_dUpdate (m O : JDict) (v : String)
    (h : dGet O v = none) : dGet (dUpdate m O) v = dGet m v := by
  apply dGet_dUpdate_not_mem
  intro hm
  have := dGet_isSome_of_mem O v hm
  rw [h] at this
  exact Bool.noConfusion this

/-- C5: template and discovery merge per verb — when the template
supplies an operation map for a route and live discovery produces a
non-empty operation map for the same route, the final `paths` entry is
the template's map updated by discovery's: discovery's operation
overwrites the template's for each discovered verb, and every other verb
of the template's map survives unchanged. -/
theorem swagger_template_verb_merge (reg : Registry) (fuel : Nat)
    (ruleParser : String → String) (T P0 m : JDict) (r0 : String)
    (ms : List (String × MethodDoc))
    (hTnd : (dKeys T).Nodup)
    (hT : dGet T "paths" = some (.obj P0))
    (hR : dGet P0 (ruleParser r0) = some (.obj m))
    (hO : methodOps reg fuel ms ≠ []) :
    dGet (swagger reg fuel ruleParser [(r0, ms)] (some T)) "paths"
      = some (.obj (dSet P0 (ruleParser r0)
          (.obj (dUpdate m (methodOps reg fuel ms)))))
    ∧ (∀ v op, dGet (methodOps reg fuel ms) v = some op →
        dGet (dUpdate m (methodOps reg fuel ms)) v = some op)
    ∧ (∀ v, dGet (methodOps reg fuel ms) v = none →
        dGet (dUpdate m (methodOps reg fuel ms)) v = dGet m v) := by
  refine ⟨?_, ?_, ?_⟩
  · rw [dGet_swagger_paths]
    have hseed : dGetObj (templateSeed (some T)) "paths" = P0 := by
      show asObj ((dGet (dUpdate swaggerBase T) "paths").getD .null) = P0
      rw [dGet_dUpdate_some_of_nodup _ _ _ _ hTnd hT]
      rfl
    have hOp : pathOp reg fuel ruleParser (r0, ms)
        = some (ruleParser r0, methodOps reg fuel ms) := by
      simp [pathOp, List.isEmpty_iff, hO]
    unfold pathsResult
    rw [hseed]
    rw [List.map_cons, List.map_nil, List.foldl_cons, List.foldl_nil, hOp,
      applyOp_some]
    have hgo : dGetObj P0 (ruleParser r0) = m := by
      rw [dGetObj, hR]
      rfl
    rw [hgo]
  · intro v op h
    exact dGet_dUpdate_some_of_nodup _ _ _ _ (methodOps_keys_nodup reg fuel ms) h
  · intro v h
    exact dGet_none_of_dGet_none_dUpdate _ _ _ h

/-! ### Concrete data for witnesses -/

/-- A registry resolving every import to a fixed schema object. -/
def wReg : Registry := fun _ _ => [("type", Json.str "object")]

def wRP : String → String := fun r => r

def wM : JDict :=
  [("get", .obj [("summary", .str "template get")]),
   ("post", .obj [("summary", .str "template post")])]

def wP0 : JDict := [("/a", .obj wM)]

def wT : JDict := [("info", .obj [("title", .str "t")]), ("paths", .obj wP0)]

def wDoc : MethodDoc :=
  ⟨some "s", some "d",
   some [("responses", .obj [("200", .obj [("description", .str "ok")])])]⟩

def wMs : List (String × MethodDoc) := [("get", wDoc)]

theorem swagger_template_verb_merge_witness :
    ((dKeys wT).Nodup ∧ dGet wT "paths" = some (.obj wP0) ∧
     dGet wP0 (wRP "/a") = some (.obj wM) ∧ methodOps wReg 100 wMs ≠ []) ∧
    (dGet (swagger wReg 100 wRP [("/a", wMs)] (some wT)) "paths"
      = some (.obj (dSet wP0 (wRP "/a")
          (.obj (dUpdate wM (methodOps wReg 100 wMs)))))
    ∧ (∀ v op, dGet (methodOps wReg 100 wMs) v = some op →
        dGet (dUpdate wM (methodOps wReg 100 wMs)) v = some op)
    ∧ (∀ v, dGet (methodOps wReg 100 wMs) v = none →
        dGet (dUpdate wM (methodOps wReg 100 wMs)) v = dGet wM v)) := by
  have h1 : (dKeys wT).Nodup := by decide
  have h2 : dGet wT "paths" = some (.obj wP0) := rfl
  have h3 : dGet wP0 (wRP "/a") = some (.obj wM) := rfl
  have h4 : methodOps wReg 100 wMs ≠ [] := by
    intro h
    have hl : (methodOps wReg 100 wMs).length = 1 := rfl
    rw [h] at hl
    exact absurd hl (by decide)
  exact ⟨⟨h1, h2, h3, h4⟩,
    swagger_template_verb_merge wReg 100 wRP wT wP0 wM "/a" wMs h1 h2 h3 h4⟩

theorem dUpdate_cons_not_mem (d : JDict) (k : String) (v : Json) (b : JDict)
    (h : k ∉ dKeys b) : dUpdate ((k, v) :: d) b = (k, v) :: dUpdate d b := by
  induction b generalizing d with
  | nil => rfl
  | cons kv b ih =>
    obtain ⟨k₁, v₁⟩ := kv
    simp only [dKeys_cons, List.mem_cons] at h
    push_neg at h
    rw [dUpdate_cons, dUpdate_cons]
    have hs : dSet ((k, v) :: d) k₁ v₁ = (k, v) :: dSet d k₁ v₁ := by
      simp [dSet, fun hEq : k = k₁ => h.1 hEq]
    rw [hs, ih _ h.2]

theorem dUpdate_nil_of_nodup (b : JDict) (h : (dKeys b).Nodup) :
    dUpdate [] b = b := by
  induction b with
  | nil => rfl
  | cons kv b ih =>
    obtain ⟨k, v⟩ := kv
    simp only [dKeys_cons, List.nodup_cons] at h
    rw [dUpdate_cons, dSet_nil, dUpdate_cons_not_mem _ _ _ _ h.1, ih h.2]

theorem dKeys_dDel_sublist (d : JDict) (k : String) :
    (dKeys (dDel d k)).Sublist (dKeys d) := by
  induction d with
  | nil => simp [dDel]
  | cons kv rest ih =>
    obtain ⟨k', v'⟩ := kv
    by_cases h : k' = k
    · simp only [dDel, if_pos h, dKeys_cons]
      exact List.sublist_cons_of_sublist _ (List.Sublist.refl _)
    · simp only [dDel, if_neg h, dKeys_cons]
      exact List.Sublist.cons₂ _ ih

theorem dKeys_dDel_nodup (d : JDict) (k : String) (h : (dKeys d).Nodup) :
    (dKeys (dDel d k)).Nodup :=
  h.sublist (dKeys_dDel_sublist d k)

/-- C9 counterexample: two hoisted definitions carrying identifier `X`
merged by the assembler loop; the earlier object's key `a` survives in
`definitions[X]`, so the final entry is not the last-written object
minus its identifier. -/
theorem mergeDef_last_write_counterexample :
    dGet ([Json.obj [("id", Json.str "X"), ("a", Json.num 1)],
           Json.obj [("id", Json.str "X"), ("b", Json.num 2)]].foldl mergeDef []) "X"
      = some (.obj [("a", Json.num 1), ("b", Json.num 2)])
    ∧ dGet ([Json.obj [("id", Json.str "X"), ("a", Json.num 1)],
             Json.obj [("id", Json.str "X"), ("b", Json.num 2)]].foldl mergeDef []) "X"
      ≠ some (.obj [("b", Json.num 2)]) := by
  refine ⟨rfl, ?_⟩
  intro h
  have e1 : dGet ([Json.obj [("id", Json.str "X"), ("a", Json.num 1)],
      Json.obj [("id", Json.str "X"), ("b", Json.num 2)]].foldl mergeDef []) "X"
      = some (.obj [("a", Json.num 1), ("b", Json.num 2)]) := rfl
  have e2 := e1.symm.trans h
  simp at e2

/-- C9 (amended): when two hoisted definition objects processed in one
invocation carry the same identifier `X`, `definitions[X]` is the
dict-update merge of the two bodies: the later object's keys overwrite
the earlier's same-named keys, and keys present only in the earlier
object survive. -/
theorem mergeDef_duplicate_id_merge (dd1 dd2 : JDict) (X : String)
    (hnd1 : (dKeys dd1).Nodup) (hnd2 : (dKeys dd2).Nodup)
    (h1 : dGet dd1 "id" = some (.str X)) (h2 : dGet dd2 "id" = some (.str X)) :
    dGet ([Json.obj dd1, Json.obj dd2].foldl mergeDef []) X
      = some (.obj (dUpdate (dDel dd1 "id") (dDel dd2 "id")))
    ∧ (∀ k op, dGet (dDel dd2 "id") k = some op →
        dGet (dUpdate (dDel dd1 "id") (dDel dd2 "id")) k = some op)
    ∧ (∀ k, dGet (dDel dd2 "id") k = none →
        dGet (dUpdate (dDel dd1 "id") (dDel dd2 "id")) k = dGet (dDel dd1 "id") k) := by
  refine ⟨?_, ?_, ?_⟩
  · have s1 : mergeDef [] (Json.obj dd1)
        = [(X, Json.obj (dDel dd1 "id"))] := by
      simp only [mergeDef, h1, jKeyStr]
      rw [show asObj ((dGet ([] : JDict) X).getD Json.null) = [] from rfl,
        dUpdate_nil_of_nodup _ (dKeys_dDel_nodup _ _ hnd1)]
      rfl
    have s2 : mergeDef [(X, Json.obj (dDel dd1 "id"))] (Json.obj dd2)
        = [(X, Json.obj (dUpdate (dDel dd1 "id") (dDel dd2 "id")))] := by
      simp only [mergeDef, h2, jKeyStr]
      simp [dSet, asObj, dGet]
    rw [List.foldl_cons, List.foldl_cons, List.foldl_nil, s1, s2]
    simp [dGet]
  · intro k op h
    exact dGet_dUpdate_some_of_nodup _ _ _ _ (dKeys_dDel_nodup _ _ hnd2) h
  · intro k h
    exact dGet_none_of_dGet_none_dUpdate _ _ _ h

theorem mergeDef_duplicate_id_merge_witness :
    (((dKeys [("id", Json.str "X"), ("a", Json.num 1)]).Nodup) ∧
     ((dKeys [("id", Json.str "X"), ("b", Json.num 2)]).Nodup) ∧
     dGet [("id", Json.str "X"), ("a", Json.num 1)] "id" = some (.str "X") ∧
     dGet [("id", Json.str "X"), ("b", Json.num 2)] "id" = some (.str "X")) ∧
    (dGet ([Json.obj [("id", Json.str "X"), ("a", Json.num 1)],
            Json.obj [("id", Json.str "X"), ("b", Json.num 2)]].foldl mergeDef []) "X"
      = some (.obj (dUpdate (dDel [("id", Json.str "X"), ("a", Json.num 1)] "id")
          (dDel [("id", Json.str "X"), ("b", Json.num 2)] "id")))
    ∧ (∀ k op, dGet (dDel [("id", Json.str "X"), ("b", Json.num 2)] "id") k = some op →
        dGet (dUpdate (dDel [("id", Json.str "X"), ("a", Json.num 1)] "id")
          (dDel [("id", Json.str "X"), ("b", Json.num 2)] "id")) k = some op)
    ∧ (∀ k, dGet (dDel [("id", Json.str "X"), ("b", Json.num 2)] "id") k = none →
        dGet (dUpdate (dDel [("id", Json.str "X"), ("a", Json.num 1)] "id")
          (dDel [("id", Json.str "X"), ("b", Json.num 2)] "id")) k
          = dGet (dDel [("id", Json.str "X"), ("a", Json.num 1)] "id") k)) := by
  have h1 : (dKeys [("id", Json.str "X"), ("a", Json.num 1)]).Nodup := by decide
  have h2 : (dKeys [("id", Json.str "X"), ("b", Json.num 2)]).Nodup := by decide
  have h3 : dGet [("id", Json.str "X"), ("a", Json.num 1)] "id"
      = some (Json.str "X") := rfl
  have h4 : dGet [("id", Json.str "X"), ("b", Json.num 2)] "id"
      = some (Json.str "X") := rfl
  exact ⟨⟨h1, h2, h3, h4⟩, mergeDef_duplicate_id_merge _ _ _ h1 h2 h3 h4⟩

/-! ### Extractor claims -/

theorem importInfo_none_of_not_import (f s : JDict)
    (hschema : dGet f "schema" = some (.obj s)) (himp : isImportSchema s = false) :
    importInfo (.obj f) = none := by
  simp only [importInfo, hschema]
  cases hr : dGet s "$ref" with
  | none => rfl
  | some v =>
      cases v with
      | str r =>
          simp only [isImportSchema, hr] at himp
          simp [himp]
      | null => rfl
      | bool b => rfl
      | num n => rfl
      | arr l => rfl
      | obj o => rfl

theorem exArray_fst_get (reg : Registry) (fuel level : Nat) (d : JDict) (k : String)
    (hk : k ≠ "items") : dGet (exArray reg fuel level d).1 k = dGet d k := by
  unfold exArray
  cases hi : dGet d "items" with
  | none => rfl
  | some v =>
      cases v with
      | obj it =>
          by_cases hck : containsKey it "schema"
          · simp only [hck, if_true]
            exact dGet_dSet_diff _ _ _ _ (fun h => hk h.symm)
          · simp only [hck, Bool.false_eq_true, if_false]
      | null => rfl
      | bool b => rfl
      | num n => rfl
      | str st => rfl
      | arr l => rfl

theorem exItem_nested_id (reg : Registry) (m level : Nat) (f s : JDict) (X : String)
    (hlvl : level ≠ 0)
    (hschema : dGet f "schema" = some (.obj s))
    (hid : idOf s = some X)
    (hnd : (dKeys f).Nodup) :
    ∃ f2, (exItem reg (m + 1) level (.obj f)).1 = Json.obj f2
      ∧ dGet f2 "schema" = none
      ∧ dGet f2 "$ref" = some (.str ("#/definitions/" ++ X)) := by
  have hb : (level == 0) = false := by simp [hlvl]
  have hstep : (exSchemaStep reg m level f).1
      = dDel (dSet f "$ref" (.str ("#/definitions/" ++ X))) "schema" := by
    simp only [exSchemaStep, hschema, hid, hb, Bool.false_eq_true, if_false]
  refine ⟨(exArray reg m level (exSchemaStep reg m level f).1).1, ?_, ?_, ?_⟩
  · rw [exItem_obj]
  · rw [exArray_fst_get _ _ _ _ _ (by decide), hstep]
    exact dGet_dDel_same _ _ (dKeys_dSet_nodup _ _ _ hnd)
  · rw [exArray_fst_get _ _ _ _ _ (by decide), hstep,
      dGet_dDel_diff _ _ _ (by decide), dGet_dSet_same]

/-- C3: a schema carrying identifier `X` reached at depth greater than 0
has its containing entry's `schema` key removed and the reference
`$ref: #/definitions/X` merged directly into the entry at its own
level. -/
theorem extract_nested_id_merges_ref (reg : Registry) (fuel level : Nat)
    (f s : JDict) (X : String)
    (hfuel : 2 ≤ fuel)
    (hlvl : level ≠ 0)
    (hschema : dGet f "schema" = some (.obj s))
    (himp : isImportSchema s = false)
    (hid : idOf s = some X)
    (hnd : (dKeys f).Nodup) :
    ∃ f2, (extract_definitions reg fuel [Json.obj f] level).1 = [Json.obj f2]
      ∧ dGet f2 "schema" = none
      ∧ dGet f2 "$ref" = some (.str ("#/definitions/" ++ X)) := by
  obtain ⟨m, rfl⟩ : ∃ m, fuel = m + 2 := ⟨fuel - 2, by omega⟩
  obtain ⟨f2, he, h1, h2⟩ := exItem_nested_id reg m level f s X hlvl hschema hid hnd
  refine ⟨f2, ?_, h1, h2⟩
  show (exList reg (m + 2) level [Json.obj f]).1 = [Json.obj f2]
  simp only [exList, importInfo_none_of_not_import f s hschema himp]
  rw [he]

theorem extract_nested_id_merges_ref_witness :
    ((2 : Nat) ≤ 10 ∧ (1 : Nat) ≠ 0 ∧
     dGet [("schema", Json.obj [("id", Json.str "Nested"), ("t", Json.num 1)])] "schema"
       = some (.obj [("id", Json.str "Nested"), ("t", Json.num 1)]) ∧
     isImportSchema [("id", Json.str "Nested"), ("t", Json.num 1)] = false ∧
     idOf [("id", Json.str "Nested"), ("t", Json.num 1)] = some "Nested" ∧
     (dKeys [("schema", Json.obj [("id", Json.str "Nested"), ("t", Json.num 1)])]).Nodup) ∧
    (∃ f2, (extract_definitions wReg 10
        [Json.obj [("schema", Json.obj [("id", Json.str "Nested"), ("t", Json.num 1)])]] 1).1
        = [Json.obj f2]
      ∧ dGet f2 "schema" = none
      ∧ dGet f2 "$ref" = some (.str ("#/definitions/" ++ "Nested"))) :=
  ⟨⟨by decide, by decide, rfl, rfl, rfl, by decide⟩,
   extract_nested_id_merges_ref wReg 10 1 _ _ "Nested" (by decide) (by decide)
     rfl rfl rfl (by decide)⟩

theorem exList_cons_import (reg : Registry) (n level : Nat) (item : Json)
    (rest : List Json) (f s : JDict) (r : String)
    (hp : importInfo item = some (f, s, r)) :
    exList reg (n + 1) level (item :: rest)
      = ((resolveImport reg f s r).1 :: rest, [(resolveImport reg f s r).2], true) := by
  simp only [exList, hp]

theorem exList_cons_no_import (reg : Registry) (n level : Nat) (item : Json)
    (rest : List Json) (hp : importInfo item = none) :
    exList reg (n + 1) level (item :: rest)
      = ((exItem reg n level item).1 :: (exList reg n level rest).1,
         (if (exList reg n level rest).2.2 then (exList reg n level rest).2.1
          else (exItem reg n level item).2 ++ (exList reg n level rest).2.1),
         (exList reg n level rest).2.2) := by
  simp only [exList, hp]

theorem exList_import_reaches (reg : Registry) (level : Nat) (pre post : List Json)
    (item : Json) (f s : JDict) (r : String) :
    ∀ fuel, pre.length + 1 ≤ fuel →
    (∀ it ∈ pre, importInfo it = none) →
    importInfo item = some (f, s, r) →
    (exList reg fuel level (pre ++ item :: post)).2.1 = [(resolveImport reg f s r).2]
    ∧ (exList reg fuel level (pre ++ item :: post)).2.2 = true
    ∧ ∃ pre2, (exList reg fuel level (pre ++ item :: post)).1
        = pre2 ++ (resolveImport reg f s r).1 :: post := by
  induction pre with
  | nil =>
      intro fuel hfuel hpre hitem
      obtain ⟨n, rfl⟩ : ∃ n, fuel = n + 1 := ⟨fuel - 1, by omega⟩
      rw [List.nil_append, exList_cons_import reg n level item post f s r hitem]
      exact ⟨rfl, rfl, ⟨[], rfl⟩⟩
  | cons p pre ih =>
      intro fuel hfuel hpre hitem
      obtain ⟨n, rfl⟩ : ∃ n, fuel = n + 1 := ⟨fuel - 1, by omega⟩
      have hp : importInfo p = none := hpre p (List.mem_cons_self _ _)
      have hlen : pre.length + 1 ≤ n := by
        simp only [List.length_cons] at hfuel
        omega
      obtain ⟨hA, hB, pre2, hC⟩ := ih n hlen
        (fun it hm => hpre it (List.mem_cons_of_mem _ hm)) hitem
      rw [List.cons_append, exList_cons_no_import reg n level p _ hp]
      dsimp only
      refine ⟨?_, ?_, ?_⟩
      · simp only [hB, if_true]
        exact hA
      · exact hB
      · refine ⟨(exItem reg n level p).1 :: pre2, ?_⟩
        rw [hC]
        rfl

/-- C2: an import-style reference anywhere in the entry list
short-circuits the extractor — the result for the whole list is exactly
the single registry-resolved object with its identifier stamped to the
dotted path, and the triggering entry's `$ref` is rewritten to
`#/definitions/<dotted-path>`, regardless of the other entries. -/
theorem extract_import_short_circuits (reg : Registry) (fuel level : Nat)
    (pre post : List Json) (item : Json) (f s : JDict) (r : String)
    (hfuel : pre.length + 1 ≤ fuel)
    (hpre : ∀ it ∈ pre, importInfo it = none)
    (hitem : importInfo item = some (f, s, r)) :
    (extract_definitions reg fuel (pre ++ item :: post) level).2
      = [Json.obj (dSet (reg (importModule r) (importName r)) "id"
          (.str (importTail r)))]
    ∧ ∃ pre2, (extract_definitions reg fuel (pre ++ item :: post) level).1
        = pre2 ++ Json.obj (dSet f "schema"
            (.obj (dSet s "$ref" (.str ("#/definitions/" ++ importTail r))))) :: post := by
  obtain ⟨h1, _, h3⟩ := exList_import_reaches reg level pre post item f s r fuel
    hfuel hpre hitem
  exact ⟨h1, h3⟩

theorem extract_import_short_circuits_witness :
    (([Json.obj [("schema", Json.obj [("id", Json.str "Prev")])]].length + 1 ≤ 10) ∧
     (∀ it ∈ [Json.obj [("schema", Json.obj [("id", Json.str "Prev")])]],
        importInfo it = none) ∧
     importInfo (Json.obj [("schema", Json.obj [("$ref", Json.str "#/import/a.b.C")])])
       = some ([("schema", Json.obj [("$ref", Json.str "#/import/a.b.C")])],
               [("$ref", Json.str "#/import/a.b.C")], "#/import/a.b.C")) ∧
    ((extract_definitions wReg 10
        ([Json.obj [("schema", Json.obj [("id", Json.str "Prev")])]] ++
         Json.obj [("schema", Json.obj [("$ref", Json.str "#/import/a.b.C")])] ::
         [Json.obj [("in", Json.str "query")]])).2
      = [Json.obj (dSet (wReg (importModule "#/import/a.b.C")
          (importName "#/import/a.b.C")) "id"
          (.str (importTail "#/import/a.b.C")))]
    ∧ ∃ pre2, (extract_definitions wReg 10
        ([Json.obj [("schema", Json.obj [("id", Json.str "Prev")])]] ++
         Json.obj [("schema", Json.obj [("$ref", Json.str "#/import/a.b.C")])] ::
         [Json.obj [("in", Json.str "query")]])).1
        = pre2 ++ Json.obj (dSet [("schema", Json.obj [("$ref", Json.str "#/import/a.b.C")])]
            "schema" (.obj (dSet [("$ref", Json.str "#/import/a.b.C")] "$ref"
              (.str ("#/definitions/" ++ importTail "#/import/a.b.C"))))) ::
           [Json.obj [("in", Json.str "query")]]) := by
  have h1 : ([Json.obj [("schema", Json.obj [("id", Json.str "Prev")])]].length + 1 ≤ 10) := by
    decide
  have h2 : ∀ it ∈ [Json.obj [("schema", Json.obj [("id", Json.str "Prev")])]],
      importInfo it = none := by
    intro it hm
    rw [List.mem_singleton] at hm
    subst hm
    rfl
  have h3 : importInfo (Json.obj [("schema", Json.obj [("$ref", Json.str "#/import/a.b.C")])])
      = some ([("schema", Json.obj [("$ref", Json.str "#/import/a.b.C")])],
              [("$ref", Json.str "#/import/a.b.C")], "#/import/a.b.C") := rfl
  exact ⟨⟨h1, h2, h3⟩,
    extract_import_short_circuits wReg 10 0 _ _ _ _ _ _ h1 h2 h3⟩

theorem exItem_level0_id (reg : Registry) (m : Nat) (f s : JDict) (X : String)
    (hschema : dGet f "schema" = some (.obj s))
    (hid : idOf s = some X) :
    ∃ f2, (exItem reg (m + 1) 0 (.obj f)).1 = Json.obj f2
      ∧ dGet f2 "schema" = some (.obj [("$ref", .str ("#/definitions/" ++ X))]) := by
  have hstep : (exSchemaStep reg m 0 f).1
      = dSet f "schema" (.obj [("$ref", .str ("#/definitions/" ++ X))]) := by
    simp only [exSchemaStep, hschema, hid]
    rfl
  refine ⟨(exArray reg m 0 (exSchemaStep reg m 0 f).1).1, ?_, ?_⟩
  · rw [exItem_obj]
  · rw [exArray_fst_get _ _ _ _ _ (by decide), hstep, dGet_dSet_same]

/-- C10: when an identified schema precedes an import-style entry, the
identified entry is still rewritten in place to a `#/definitions/X`
reference before the short-circuit return, yet its hoisted schema object
is absent from the extractor's result, so `definitions` built from that
result has no entry for `X` — the rewritten reference dangles. -/
theorem extract_import_dangles_preceding_ref (reg : Registry) (fuel : Nat)
    (f1 s1 : JDict) (item : Json) (f s : JDict) (r : String) (X : String)
    (hfuel : 2 ≤ fuel)
    (hschema1 : dGet f1 "schema" = some (.obj s1))
    (himp1 : isImportSchema s1 = false)
    (hid1 : idOf s1 = some X)
    (hitem : importInfo item = some (f, s, r))
    (hne : importTail r ≠ X) :
    (extract_definitions reg fuel [Json.obj f1, item]).2
      = [Json.obj (dSet (reg (importModule r) (importName r)) "id"
          (.str (importTail r)))]
    ∧ (∃ f2, (extract_definitions reg fuel [Json.obj f1, item]).1
        = [Json.obj f2, (resolveImport reg f s r).1]
        ∧ dGet f2 "schema" = some (.obj [("$ref", .str ("#/definitions/" ++ X))]))
    ∧ dGet (((extract_definitions reg fuel [Json.obj f1, item]).2).foldl mergeDef []) X
        = none := by
  obtain ⟨m, rfl⟩ : ∃ m, fuel = m + 2 := ⟨fuel - 2, by omega⟩
  have hno : importInfo (Json.obj f1) = none :=
    importInfo_none_of_not_import f1 s1 hschema1 himp1
  have hstep : exList reg (m + 2) 0 [Json.obj f1, item]
      = ((exItem reg (m + 1) 0 (Json.obj f1)).1 ::
          (exList reg (m + 1) 0 [item]).1,
         (if (exList reg (m + 1) 0 [item]).2.2 then (exList reg (m + 1) 0 [item]).2.1
          else (exItem reg (m + 1) 0 (Json.obj f1)).2 ++ (exList reg (m + 1) 0 [item]).2.1),
         (exList reg (m + 1) 0 [item]).2.2) :=
    exList_cons_no_import reg (m + 1) 0 _ _ hno
  have himp2 : exList reg (m + 1) 0 [item]
      = ((resolveImport reg f s r).1 :: [], [(resolveImport reg f s r).2], true) :=
    exList_cons_import reg m 0 item [] f s r hitem
  have hdefs : (extract_definitions reg (m + 2) [Json.obj f1, item]).2
      = [(resolveImport reg f s r).2] := by
    show (exList reg (m + 2) 0 [Json.obj f1, item]).2.1 = _
    rw [hstep]
    dsimp only
    rw [himp2]
    simp
  refine ⟨hdefs, ?_, ?_⟩
  · obtain ⟨f2, he, hs⟩ := exItem_level0_id reg m f1 s1 X hschema1 hid1
    refine ⟨f2, ?_, hs⟩
    show (exList reg (m + 2) 0 [Json.obj f1, item]).1 = _
    rw [hstep]
    dsimp only
    rw [himp2, he]
  · rw [hdefs]
    show dGet (mergeDef [] (resolveImport reg f s r).2) X = none
    have hd : (resolveImport reg f s r).2
        = Json.obj (dSet (reg (importModule r) (importName r)) "id"
            (.str (importTail r))) := rfl
    rw [hd]
    simp only [mergeDef, dGet_dSet_same, jKeyStr]
    rw [dSet_nil]
    simp only [dGet_cons, if_neg hne, dGet_nil]

theorem extract_import_dangles_preceding_ref_witness :
    ((2 : Nat) ≤ 10 ∧
     dGet [("schema", Json.obj [("id", Json.str "Prev")])] "schema"
       = some (.obj [("id", Json.str "Prev")]) ∧
     isImportSchema [("id", Json.str "Prev")] = false ∧
     idOf [("id", Json.str "Prev")] = some "Prev" ∧
     importInfo (Json.obj [("schema", Json.obj [("$ref", Json.str "#/import/a.b.C")])])
       = some ([("schema", Json.obj [("$ref", Json.str "#/import/a.b.C")])],
               [("$ref", Json.str "#/import/a.b.C")], "#/import/a.b.C") ∧
     importTail "#/import/a.b.C" ≠ "Prev") ∧
    ((extract_definitions wReg 10
        [Json.obj [("schema", Json.obj [("id", Json.str "Prev")])],
         Json.obj [("schema", Json.obj [("$ref", Json.str "#/import/a.b.C")])]]).2
      = [Json.obj (dSet (wReg (importModule "#/import/a.b.C")
          (importName "#/import/a.b.C")) "id" (.str (importTail "#/import/a.b.C")))]
    ∧ (∃ f2, (extract_definitions wReg 10
        [Json.obj [("schema", Json.obj [("id", Json.str "Prev")])],
         Json.obj [("schema", Json.obj [("$ref", Json.str "#/import/a.b.C")])]]).1
        = [Json.obj f2,
           (resolveImport wReg [("schema", Json.obj [("$ref", Json.str "#/import/a.b.C")])]
             [("$ref", Json.str "#/import/a.b.C")] "#/import/a.b.C").1]
        ∧ dGet f2 "schema" = some (.obj [("$ref", .str ("#/definitions/" ++ "Prev"))]))
    ∧ dGet (((extract_definitions wReg 10
        [Json.obj [("schema", Json.obj [("id", Json.str "Prev")])],
         Json.obj [("schema", Json.obj [("$ref", Json.str "#/import/a.b.C")])]]).2).foldl
          mergeDef []) "Prev" = none) := by
  have h1 : (2 : Nat) ≤ 10 := by decide
  have h2 : dGet [("schema", Json.obj [("id", Json.str "Prev")])] "schema"
      = some (.obj [("id", Json.str "Prev")]) := rfl
  have h3 : isImportSchema [("id", Json.str "Prev")] = false := rfl
  have h4 : idOf [("id", Json.str "Prev")] = some "Prev" := rfl
  have h5 : importInfo (Json.obj [("schema", Json.obj [("$ref", Json.str "#/import/a.b.C")])])
      = some ([("schema", Json.obj [("$ref", Json.str "#/import/a.b.C")])],
              [("$ref", Json.str "#/import/a.b.C")], "#/import/a.b.C") := rfl
  have h6 : importTail "#/import/a.b.C" ≠ "Prev" := by decide
  exact ⟨⟨h1, h2, h3, h4, h5, h6⟩,
    extract_import_dangles_preceding_ref wReg 10 _ _ _ _ _ _ _ h1 h2 h3 h4 h5 h6⟩

/-! ### Documentation-block parser claims -/

/-- C7 counterexample: a single-line documentation text is returned as
the summary without passing through the sanitization function — the
parser returns the raw line, not the sanitized one. -/
theorem parse_docstring_summary_counterexample :
    (parse_docstring (fun _ => ['X']) ['h']).1 = some ['h']
    ∧ (parse_docstring (fun _ => ['X']) ['h']).1 ≠ some ((fun _ => ['X']) ['h']) := by
  decide

/-- C7 (amended): when the documentation text contains a line break, the
summary is the sanitized text up to the first break; when it is a single
line with no break, the summary is that raw line — not passed through
the sanitization function — and the description and fragment are
absent. -/
theorem parse_docstring_summary (process : List Char → List Char) (doc : List Char)
    (hne : doc ≠ []) :
    (∀ lf, findSub doc ['\n'] = some lf →
      (parse_docstring process doc).1 = some (process (doc.take lf)))
    ∧ (findSub doc ['\n'] = none →
      parse_docstring process doc = (some doc, none, none)) := by
  constructor
  · intro lf hlf
    simp only [parse_docstring, if_neg hne, hlf]
    cases h2 : findSub (doc.drop (lf + 1)) "---".toList with
    | none => rfl
    | some ys => rfl
  · intro hlf
    simp only [parse_docstring, if_neg hne, hlf]

theorem parse_docstring_summary_witness :
    ("sum\nrest".toList ≠ []) ∧
    ((∀ lf, findSub "sum\nrest".toList ['\n'] = some lf →
      (parse_docstring sanitize "sum\nrest".toList).1
        = some (sanitize ("sum\nrest".toList.take lf)))
    ∧ (findSub "sum\nrest".toList ['\n'] = none →
      parse_docstring sanitize "sum\nrest".toList
        = (some "sum\nrest".toList, none, none))) :=
  ⟨by decide, parse_docstring_summary sanitize "sum\nrest".toList (by decide)⟩

/-- C8 counterexample: the fragment separator is found as a substring
anywhere after the first line, so text merely containing `---` inside a
longer line does start a fragment. -/
theorem parse_docstring_separator_counterexample :
    (parse_docstring (fun x => x) "sum\nfoo---bar".toList).2.2
      = some "o---bar".toList
    ∧ (parse_docstring (fun x => x) "sum\nfoo---bar".toList).2.2 ≠ none := by
  decide

/-- C8 (amended): after the first line the parser searches for the
substring `---` anywhere, not only as a whole line; if the substring is
absent the entire remaining text, sanitized, becomes the description and
no fragment is produced, and if it is present (even inside a longer
line) a fragment is produced from that offset on. -/
theorem parse_docstring_separator (process : List Char → List Char)
    (doc : List Char) (lf : Nat)
    (hlf : findSub doc ['\n'] = some lf) :
    (findSub (doc.drop (lf + 1)) "---".toList = none →
      parse_docstring process doc
        = (some (process (doc.take lf)), some (process (doc.drop (lf + 1))), none))
    ∧ (∀ ys, findSub (doc.drop (lf + 1)) "---".toList = some ys →
      (parse_docstring process doc).2.2 = some (doc.drop (lf + ys))) := by
  have hne : doc ≠ [] := by
    intro h
    subst h
    exact Option.noConfusion ((rfl : findSub [] ['\n'] = none).symm.trans hlf)
  constructor
  · intro h2
    simp only [parse_docstring, if_neg hne, hlf, h2]
  · intro ys h2
    simp only [parse_docstring, if_neg hne, hlf, h2]

theorem parse_docstring_separator_witness :
    (findSub "sum\ndesc\n---\nrest".toList ['\n'] = some 3) ∧
    ((findSub ("sum\ndesc\n---\nrest".toList.drop 4) "---".toList = none →
      parse_docstring sanitize "sum\ndesc\n---\nrest".toList
        = (some (sanitize ("sum\ndesc\n---\nrest".toList.take 3)),
           some (sanitize ("sum\ndesc\n---\nrest".toList.drop 4)), none))
    ∧ (∀ ys, findSub ("sum\ndesc\n---\nrest".toList.drop 4) "---".toList = some ys →
      (parse_docstring sanitize "sum\ndesc\n---\nrest".toList).2.2
        = some ("sum\ndesc\n---\nrest".toList.drop (3 + ys)))) :=
  ⟨by decide, parse_docstring_separator sanitize "sum\ndesc\n---\nrest".toList 3 (by decide)⟩

/-! ### Inert entries

`inertItemB`/`inertListB` (with their own structural fuel) describe
entries the extractor passes through unchanged, hoisting nothing: no
reference in import style, no identifier, and only inert structure below
`schema.properties`, `schema.items.schema` and the entry's own
`items.schema`.  On such input every fuel yields the identity. -/

mutual

def inertListB : Nat → List Json → Bool
  | _, [] => true
  | 0, _ :: _ => false
  | c + 1, it :: rest => inertItemB c it && inertListB c rest

def inertItemB : Nat → Json → Bool
  | 0, _ => false
  | c + 1, .obj fl =>
      (match dGet fl "schema" with
       | some (.obj s) =>
           !(isImportSchema s) && (idOf s).isNone
           && (match dGet s "properties" with
               | some (.obj p) => inertListB c (p.map Prod.snd)
               | _ => true)
           && (match dGet s "items" with
               | some (.obj it) => !(containsKey it "schema") || inertItemB c (.obj it)
               | _ => true)
       | _ => true)
      && (match dGet fl "items" with
          | some (.obj it2) => !(containsKey it2 "schema") || inertItemB c (.obj it2)
          | _ => true)
  | _ + 1, _ => true

end

/-- `rekey` over the values of the same mapping is the identity. -/
theorem rekey_map_snd (p : JDict) : rekey p (p.map Prod.snd) = p := by
  induction p with
  | nil => rfl
  | cons kv p ih =>
      obtain ⟨k, v⟩ := kv
      simp [rekey, List.zipWith] at ih ⊢
      exact ih

theorem importInfo_none_of_inert (c : Nat) (it : Json)
    (h : inertItemB c it = true) : importInfo it = none := by
  obtain ⟨c, rfl⟩ : ∃ c2, c = c2 + 1 := by
    cases c with
    | zero => exact absurd h (by cases it <;> simp [inertItemB])
    | succ c2 => exact ⟨c2, rfl⟩
  cases it with
  | obj fl =>
      cases hs : dGet fl "schema" with
      | none => simp [importInfo, hs]
      | some v =>
          cases v with
          | obj s =>
              simp only [inertItemB, hs, Bool.and_eq_true, Bool.not_eq_true'] at h
              exact importInfo_none_of_not_import fl s hs h.1.1.1.1
          | null => simp [importInfo, hs]
          | bool b => simp [importInfo, hs]
          | num n => simp [importInfo, hs]
          | str st => simp [importInfo, hs]
          | arr l => simp [importInfo, hs]
  | null => rfl
  | bool b => rfl
  | num n => rfl
  | str s => rfl
  | arr l => rfl

theorem inert_exec (reg : Registry) : ∀ fuel,
    (∀ level l c, inertListB c l = true → exList reg fuel level l = (l, [], false))
    ∧ (∀ level it c, inertItemB c it = true → exItem reg fuel level it = (it, [])) := by
  intro fuel
  induction fuel with
  | zero =>
      constructor
      · intro level l c _
        rfl
      · intro level it c _
        rfl
  | succ g ih =>
      constructor
      · intro level l c h
        cases l with
        | nil => rfl
        | cons it rest =>
            obtain ⟨c', rfl⟩ : ∃ c', c = c' + 1 := by
              cases c with
              | zero => exact absurd h (by simp [inertListB])
              | succ c' => exact ⟨c', rfl⟩
            simp only [inertListB, Bool.and_eq_true] at h
            rw [exList_cons_no_import reg g level it rest
              (importInfo_none_of_inert c' it h.1)]
            rw [ih.2 level it c' h.1, ih.1 level rest c' h.2]
            simp
      · intro level it c h
        obtain ⟨c', rfl⟩ : ∃ c', c = c' + 1 := by
          cases c with
          | zero => exact absurd h (by cases it <;> simp [inertItemB])
          | succ c' => exact ⟨c', rfl⟩
        have harr : ∀ d : JDict,
            (match dGet d "items" with
             | some (.obj it2) => !(containsKey it2 "schema") || inertItemB c' (.obj it2)
             | _ => true) = true →
            exArray reg g level d = (d, []) := by
          intro d hd
          unfold exArray
          cases hi : dGet d "items" with
          | none => rfl
          | some v =>
              cases v with
              | obj it2 =>
                  simp only [hi] at hd
                  by_cases hck : containsKey it2 "schema"
                  · simp only [hck, Bool.not_true, Bool.false_or] at hd
                    have hl : inertListB (c' + 1) [Json.obj it2] = true := by
                      simp [inertListB, hd]
                    simp only [hck, if_true,
                      ih.1 (level + 1) [Json.obj it2] (c' + 1) hl]
                    simp [dSet_eq_of_dGet _ _ _ hi]
                  · simp [hck]
              | null => rfl
              | bool b => rfl
              | num n => rfl
              | str st => rfl
              | arr l => rfl
        cases it with
        | obj fl =>
            rw [exItem_obj]
            simp only [inertItemB, Bool.and_eq_true] at h
            obtain ⟨hsch, hitm⟩ := h
            have hfb : exArray reg g level fl = (fl, []) := harr fl hitm
            have hss : exSchemaStep reg g level fl = (fl, []) := by
              unfold exSchemaStep
              cases hs : dGet fl "schema" with
              | none => rfl
              | some v =>
                  cases v with
                  | obj s =>
                      simp only [hs, Bool.and_eq_true] at hsch
                      obtain ⟨⟨⟨himp, hidn⟩, hprops⟩, hitems⟩ := hsch
                      have hA : exProps reg g level s = (s, []) := by
                        unfold exProps
                        cases hp : dGet s "properties" with
                        | none => rfl
                        | some w =>
                            cases w with
                            | obj p =>
                                simp only [hp] at hprops
                                simp [ih.1 (level + 1) (p.map Prod.snd) c' hprops,
                                  rekey_map_snd, dSet_eq_of_dGet _ _ _ hp]
                            | null => rfl
                            | bool b => rfl
                            | num n => rfl
                            | str st => rfl
                            | arr l => rfl
                      have hB : exArray reg g level s = (s, []) := harr s hitems
                      have hidn2 : idOf s = none := Option.isNone_iff_eq_none.mp hidn
                      simp only [hA, hB, hidn2]
                      simp [dSet_eq_of_dGet _ _ _ hs]
                  | null => rfl
                  | bool b => rfl
                  | num n => rfl
                  | str st => rfl
                  | arr l => rfl
            rw [hss, hfb]
            rfl
        | null => rfl
        | bool b => rfl
        | num n => rfl
        | str s => rfl
        | arr l => rfl

theorem exList_flag_false (reg : Registry) (level : Nat) :
    ∀ l fuel, (∀ it ∈ l, importInfo it = none) →
    (exList reg fuel level l).2.2 = false := by
  intro l
  induction l with
  | nil =>
      intro fuel h
      cases fuel <;> rfl
  | cons it rest ih =>
      intro fuel h
      cases fuel with
      | zero => rfl
      | succ g =>
          rw [exList_cons_no_import reg g level it rest (h it (List.mem_cons_self _ _))]
          exact ih g (fun x hx => h x (List.mem_cons_of_mem _ hx))

theorem exList_append (reg : Registry) (level : Nat) :
    ∀ l1 l2 fuel, l1.length ≤ fuel →
    (∀ it ∈ l1, importInfo it = none) →
    (exList reg (fuel - l1.length) level l2).2.2 = false →
    exList reg fuel level (l1 ++ l2)
      = ((exList reg fuel level l1).1 ++ (exList reg (fuel - l1.length) level l2).1,
         (exList reg fuel level l1).2.1 ++ (exList reg (fuel - l1.length) level l2).2.1,
         false) := by
  have hx : ∀ x : List Json × List Json × Bool, x.2.2 = false → x = (x.1, x.2.1, false) := by
    intro x h
    rw [← h]
  intro l1
  induction l1 with
  | nil =>
      intro l2 fuel _ _ hflag
      have h1 : (exList reg fuel level ([] : List Json)).1 = [] := by cases fuel <;> rfl
      have h2 : (exList reg fuel level ([] : List Json)).2.1 = [] := by cases fuel <;> rfl
      rw [List.nil_append, h1, h2, List.nil_append, List.nil_append]
      simpa using hx _ hflag
  | cons p l1 ih =>
      intro l2 fuel hfuel himp hflag
      obtain ⟨n, rfl⟩ : ∃ n, fuel = n + 1 := by
        refine ⟨fuel - 1, ?_⟩
        simp only [List.length_cons] at hfuel
        omega
      have hp : importInfo p = none := himp p (List.mem_cons_self _ _)
      have himp2 : ∀ it ∈ l1, importInfo it = none :=
        fun x hx => himp x (List.mem_cons_of_mem _ hx)
      have hlen : l1.length ≤ n := by
        simp only [List.length_cons] at hfuel
        omega
      have hsub : n + 1 - (p :: l1).length = n - l1.length := by
        simp [List.length_cons]
      rw [hsub] at hflag ⊢
      rw [List.cons_append, exList_cons_no_import reg n level p _ hp,
        exList_cons_no_import reg n level p l1 hp]
      rw [ih l2 n hlen himp2 hflag]
      have hf1 : (exList reg n level l1).2.2 = false :=
        exList_flag_false reg level l1 n himp2
      dsimp only
      rw [hf1]
      simp [List.append_assoc]

/-- The entry's own `items` wrapper is inert under extraction. -/
def itemsInert (c : Nat) (d : JDict) : Bool :=
  match dGet d "items" with
  | some (.obj it2) => !(containsKey it2 "schema") || inertItemB c (.obj it2)
  | _ => true

/-- The schema's nested structure (properties values and array items) is
inert under extraction: recursion below it hoists nothing and mutates
nothing. -/
def schemaNestedInert (c : Nat) (s : JDict) : Bool :=
  (match dGet s "properties" with
   | some (.obj p) => inertListB c (p.map Prod.snd)
   | _ => true) && itemsInert c s

theorem exArray_inert (reg : Registry) (fuel level c : Nat) (d : JDict)
    (h : itemsInert c d = true) : exArray reg fuel level d = (d, []) := by
  unfold exArray
  unfold itemsInert at h
  cases hi : dGet d "items" with
  | none => rfl
  | some v =>
      cases v with
      | obj it2 =>
          simp only [hi] at h
          by_cases hck : containsKey it2 "schema"
          · simp only [hck, Bool.not_true, Bool.false_or] at h
            have hl : inertListB (c + 1) [Json.obj it2] = true := by
              simp [inertListB, h]
            simp only [hck, if_true, (inert_exec reg fuel).1 (level + 1) [Json.obj it2] (c + 1) hl]
            simp [dSet_eq_of_dGet _ _ _ hi]
          · simp [hck]
      | null => rfl
      | bool b => rfl
      | num n => rfl
      | str st => rfl
      | arr l => rfl

theorem exProps_inert (reg : Registry) (fuel level c : Nat) (s : JDict)
    (h : (match dGet s "properties" with
          | some (.obj p) => inertListB c (p.map Prod.snd)
          | _ => true) = true) :
    exProps reg fuel level s = (s, []) := by
  unfold exProps
  cases hp : dGet s "properties" with
  | none => rfl
  | some w =>
      cases w with
      | obj p =>
          simp only [hp] at h
          simp [(inert_exec reg fuel).1 (level + 1) (p.map Prod.snd) c h,
            rekey_map_snd, dSet_eq_of_dGet _ _ _ hp]
      | null => rfl
      | bool b => rfl
      | num n => rfl
      | str st => rfl
      | arr l => rfl

theorem itemsInert_dSet_schema (c : Nat) (f : JDict) (v : Json) :
    itemsInert c (dSet f "schema" v) = itemsInert c f := by
  unfold itemsInert
  rw [dGet_dSet_diff _ _ _ _ (by decide)]

theorem exItem_level0_id_inert (reg : Registry) (m c : Nat) (f s : JDict) (X : String)
    (hschema : dGet f "schema" = some (.obj s))
    (hid : idOf s = some X)
    (hsI : schemaNestedInert c s = true)
    (hfI : itemsInert c f = true) :
    exItem reg (m + 1) 0 (.obj f)
      = (Json.obj (dSet f "schema" (.obj [("$ref", .str ("#/definitions/" ++ X))])),
         [Json.obj s]) := by
  unfold schemaNestedInert at hsI
  rw [Bool.and_eq_true] at hsI
  have hstep : exSchemaStep reg m 0 f
      = (dSet f "schema" (.obj [("$ref", .str ("#/definitions/" ++ X))]),
         [Json.obj s]) := by
    unfold exSchemaStep
    simp only [hschema, exProps_inert reg m 0 c s hsI.1,
      exArray_inert reg m 0 c s hsI.2, hid]
    rfl
  rw [exItem_obj, hstep]
  dsimp only
  rw [exArray_inert reg m 0 c _ (by rw [itemsInert_dSet_schema]; exact hfI)]
  simp

theorem bodiesAt_append (k : String) (o1 o2 : List (Option (String × JDict))) :
    bodiesAt k (o1 ++ o2) = bodiesAt k o1 ++ bodiesAt k o2 := by
  simp [bodiesAt, List.filterMap_append]

theorem defOp_of_idOf (s : JDict) (X : String) (hid : idOf s = some X) :
    defOp (Json.obj s) = some (X, dDel s "id") := by
  unfold idOf at hid
  cases hg : dGet s "id" with
  | none =>
      rw [hg] at hid
      exact absurd hid (by simp)
  | some v =>
      rw [hg] at hid
      have hid2 : jKeyStr v = some X := hid
      simp [defOp, hg, hid2]

def ce1List : List Json :=
  [Json.obj [("schema", Json.obj [("id", Json.str "X"),
    ("properties", Json.obj [("p", Json.obj [("schema", Json.obj [("id", Json.str "Y")])])])])]]

/-- C1 counterexample: a depth-0 schema with identifier `X` whose
properties contain a further identified schema.  The entry's `schema` is
replaced by the reference as the claim states, but `definitions[X]` is
the schema after nested extraction — the nested schema has been replaced
by a reference — and not the original schema minus its identifier. -/
theorem extract_depth0_counterexample :
    dGet (((extract_definitions wReg 100 ce1List).2).foldl mergeDef []) "X"
      = some (.obj [("properties",
          Json.obj [("p", Json.obj [("$ref", Json.str "#/definitions/Y")])])])
    ∧ dGet (((extract_definitions wReg 100 ce1List).2).foldl mergeDef []) "X"
      ≠ some (.obj [("properties",
          Json.obj [("p", Json.obj [("schema", Json.obj [("id", Json.str "Y")])])])]) := by
  refine ⟨rfl, ?_⟩
  intro h
  have e1 : dGet (((extract_definitions wReg 100 ce1List).2).foldl mergeDef []) "X"
      = some (.obj [("properties",
          Json.obj [("p", Json.obj [("$ref", Json.str "#/definitions/Y")])])]) := rfl
  have e2 := e1.symm.trans h
  simp at e2

/-- C1 (amended): for an entry list with no import-style references, an
entry whose schema carries identifier `X` at depth 0 has its `schema`
value replaced exactly by the reference object, and — provided the
schema's nested structure hoists nothing and no other hoisted object
carries identifier `X` — merging the extractor's output into an empty
table yields `definitions[X]` equal to the original schema minus its
identifier field. -/
theorem extract_depth0_hoist (reg : Registry) (fuel c : Nat) (pre post : List Json)
    (f s : JDict) (X : String)
    (hfuel : pre.length + 2 ≤ fuel)
    (hpre : ∀ it ∈ pre, importInfo it = none)
    (hpost : ∀ it ∈ post, importInfo it = none)
    (hschema : dGet f "schema" = some (.obj s))
    (himp : isImportSchema s = false)
    (hid : idOf s = some X)
    (hsI : schemaNestedInert c s = true)
    (hfI : itemsInert c f = true)
    (hndS : (dKeys s).Nodup)
    (hpreX : bodiesAt X ((exList reg fuel 0 pre).2.1.map defOp) = [])
    (hpostX : bodiesAt X ((exList reg (fuel - (pre.length + 1)) 0 post).2.1.map defOp) = []) :
    (extract_definitions reg fuel (pre ++ Json.obj f :: post)).1
      = (exList reg fuel 0 pre).1
        ++ Json.obj (dSet f "schema" (.obj [("$ref", .str ("#/definitions/" ++ X))]))
        :: (exList reg (fuel - (pre.length + 1)) 0 post).1
    ∧ dGet (((extract_definitions reg fuel (pre ++ Json.obj f :: post)).2).foldl
        mergeDef []) X
      = some (.obj (dDel s "id")) := by
  have himpE : importInfo (Json.obj f) = none :=
    importInfo_none_of_not_import f s hschema himp
  have hM : pre.length ≤ fuel := by omega
  have hpostflag : (exList reg (fuel - pre.length) 0 (Json.obj f :: post)).2.2 = false := by
    apply exList_flag_false
    intro it hit
    rcases List.mem_cons.mp hit with h | h
    · rw [h]
      exact himpE
    · exact hpost it h
  have happ := exList_append reg 0 pre (Json.obj f :: post) fuel hM hpre hpostflag
  obtain ⟨m, hm⟩ : ∃ m, fuel - pre.length = m + 1 := ⟨fuel - pre.length - 1, by omega⟩
  have hm2 : m = fuel - (pre.length + 1) := by omega
  obtain ⟨m2, hm3⟩ : ∃ m2, m = m2 + 1 := ⟨m - 1, by omega⟩
  have hitem : exItem reg m 0 (Json.obj f)
      = (Json.obj (dSet f "schema" (.obj [("$ref", .str ("#/definitions/" ++ X))])),
         [Json.obj s]) := by
    rw [hm3]
    exact exItem_level0_id_inert reg m2 c f s X hschema hid hsI hfI
  have hpostflag2 : (exList reg m 0 post).2.2 = false :=
    exList_flag_false reg 0 post m hpost
  have hmid : exList reg (fuel - pre.length) 0 (Json.obj f :: post)
      = (Json.obj (dSet f "schema" (.obj [("$ref", .str ("#/definitions/" ++ X))]))
          :: (exList reg m 0 post).1,
         Json.obj s :: (exList reg m 0 post).2.1,
         false) := by
    rw [hm, exList_cons_no_import reg m 0 _ _ himpE, hitem, hpostflag2]
    simp
  constructor
  · show (exList reg fuel 0 (pre ++ Json.obj f :: post)).1 = _
    rw [happ, hmid]
    dsimp only
    rw [hm2]
  · show dGet (((exList reg fuel 0 (pre ++ Json.obj f :: post)).2.1).foldl
        mergeDef []) X = _
    rw [happ]
    dsimp only
    rw [hmid]
    dsimp only
    rw [foldl_mergeDef_eq]
    have hops : bodiesAt X (((exList reg fuel 0 pre).2.1
        ++ Json.obj s :: (exList reg m 0 post).2.1).map defOp)
        = [dDel s "id"] := by
      rw [List.map_append, bodiesAt_append, hpreX, List.map_cons,
        defOp_of_idOf s X hid, bodiesAt_cons_same]
      rw [← hm2] at hpostX
      rw [hpostX]
      rfl
    rw [dGet_applyFold_mem _ _ _ (by rw [hops]; exact List.cons_ne_nil _ _), hops]
    show some (Json.obj (dUpdate (dGetObj [] X) (dDel s "id"))) = _
    rw [show dGetObj [] X = [] from rfl,
      dUpdate_nil_of_nodup _ (dKeys_dDel_nodup _ _ hndS)]

def wS : JDict :=
  [("id", Json.str "Item"),
   ("properties", Json.obj [("name", Json.obj [("type", Json.str "string")])])]

def wF : JDict := [("in", Json.str "body"), ("schema", Json.obj wS)]

theorem extract_depth0_hoist_witness :
    (([] : List Json).length + 2 ≤ 10 ∧
     dGet wF "schema" = some (.obj wS) ∧
     isImportSchema wS = false ∧
     idOf wS = some "Item" ∧
     schemaNestedInert 5 wS = true ∧
     itemsInert 5 wF = true ∧
     (dKeys wS).Nodup ∧
     bodiesAt "Item" ((exList wReg 10 0 []).2.1.map defOp) = [] ∧
     bodiesAt "Item" ((exList wReg (10 - (([] : List Json).length + 1)) 0 []).2.1.map defOp) = []) ∧
    ((extract_definitions wReg 10 ([] ++ Json.obj wF :: [])).1
      = (exList wReg 10 0 []).1
        ++ Json.obj (dSet wF "schema" (.obj [("$ref", .str ("#/definitions/" ++ "Item"))]))
        :: (exList wReg (10 - (([] : List Json).length + 1)) 0 []).1
    ∧ dGet (((extract_definitions wReg 10 ([] ++ Json.obj wF :: [])).2).foldl
        mergeDef []) "Item"
      = some (.obj (dDel wS "id"))) := by
  have h1 : ([] : List Json).length + 2 ≤ 10 := by decide
  have h2 : ∀ it ∈ ([] : List Json), importInfo it = none := fun it hit => nomatch hit
  have h3 : dGet wF "schema" = some (.obj wS) := rfl
  have h4 : isImportSchema wS = false := rfl
  have h5 : idOf wS = some "Item" := rfl
  have h6 : schemaNestedInert 5 wS = true := rfl
  have h7 : itemsInert 5 wF = true := rfl
  have h8 : (dKeys wS).Nodup := by decide
  have h9 : bodiesAt "Item" ((exList wReg 10 0 []).2.1.map defOp) = [] := rfl
  have h10 : bodiesAt "Item"
      ((exList wReg (10 - (([] : List Json).length + 1)) 0 []).2.1.map defOp) = [] := rfl
  exact ⟨⟨h1, h3, h4, h5, h6, h7, h8, h9, h10⟩,
    extract_depth0_hoist wReg 10 5 [] [] wF wS "Item" h1 h2 h2 h3 h4 h5 h6 h7 h8 h9 h10⟩

/-! ### Clean entries and idempotence

`cleanItemB`/`cleanListB` describe entry lists on which a completed
extraction run leaves a structure that a second run passes through
unchanged: well-formed mappings (no duplicated keys where a deletion
must be observed), no import-style references, and no hoisted identifier
that would make the generated `#/definitions/...` reference itself look
like an import-style one. -/

theorem json_sizeOf_pos (j : Json) : 1 ≤ sizeOf j := by
  cases j <;> simp

theorem list_sizeOf_pos (l : List Json) : 1 ≤ sizeOf l := by
  cases l with
  | nil => simp
  | cons h t =>
      simp
      omega

theorem plist_sizeOf_pos (l : List (String × Json)) : 1 ≤ sizeOf l := by
  cases l with
  | nil => simp
  | cons h t =>
      simp
      omega

theorem sizeOf_dGet (d : JDict) (k : String) (v : Json) (h : dGet d k = some v) :
    sizeOf v + 3 ≤ sizeOf d := by
  induction d with
  | nil => simp [dGet] at h
  | cons kv rest ih =>
    obtain ⟨k2, v2⟩ := kv
    simp only [dGet] at h
    by_cases hk : k2 = k
    · rw [if_pos hk, Option.some_inj] at h
      subst h
      have := plist_sizeOf_pos rest
      simp
      omega
    · rw [if_neg hk] at h
      have := ih h
      simp
      omega

theorem sizeOf_map_snd (p : JDict) : sizeOf (p.map Prod.snd) ≤ sizeOf p := by
  induction p with
  | nil => simp
  | cons kv rest ih =>
    obtain ⟨k2, v2⟩ := kv
    simp
    omega

theorem exList_length (reg : Registry) :
    ∀ fuel level l, (exList reg fuel level l).1.length = l.length := by
  intro fuel
  induction fuel with
  | zero => intro level l; rfl
  | succ g ih =>
      intro level l
      cases l with
      | nil => rfl
      | cons it rest =>
          cases himp : importInfo it with
          | some v =>
              obtain ⟨f, s, r⟩ := v
              rw [exList_cons_import reg g level it rest f s r himp]
              simp
          | none =>
              rw [exList_cons_no_import reg g level it rest himp]
              simp [ih]

theorem exList_singleton_obj (reg : Registry) (fuel level : Nat) (z : JDict) :
    ∃ y, (exList reg fuel level [Json.obj z]).1 = [Json.obj y] := by
  cases fuel with
  | zero => exact ⟨z, rfl⟩
  | succ g =>
      cases himp : importInfo (Json.obj z) with
      | some v =>
          obtain ⟨f, s, r⟩ := v
          rw [exList_cons_import reg g level _ [] f s r himp]
          exact ⟨_, rfl⟩
      | none =>
          rw [exList_cons_no_import reg g level _ [] himp]
          cases g with
          | zero => exact ⟨z, rfl⟩
          | succ g2 =>
              rw [exItem_obj]
              exact ⟨_, rfl⟩

theorem map_snd_rekey (p : JDict) (v : List Json) (h : v.length = p.length) :
    (rekey p v).map Prod.snd = v := by
  induction p generalizing v with
  | nil =>
      cases v with
      | nil => rfl
      | cons x xs => simp at h
  | cons kv rest ih =>
      cases v with
      | nil => simp at h
      | cons x xs =>
          simp only [List.length_cons] at h
          simp [rekey, List.zipWith]
          exact ih xs (by omega)

theorem rekey_rekey (p : JDict) (v : List Json) :
    rekey (rekey p v) v = rekey p v := by
  induction p generalizing v with
  | nil => rfl
  | cons kv rest ih =>
      cases v with
      | nil => rfl
      | cons x xs =>
          simp only [rekey, List.zipWith]
          exact congrArg _ (ih xs)

/-- Duplicate-free keys, as a boolean. -/
def keysNodupB : List String → Bool
  | [] => true
  | k :: rest => !(rest.contains k) && keysNodupB rest

theorem keysNodupB_nodup (ks : List String) (h : keysNodupB ks = true) : ks.Nodup := by
  induction ks with
  | nil => exact List.nodup_nil
  | cons k rest ih =>
      simp only [keysNodupB, Bool.and_eq_true, Bool.not_eq_true'] at h
      rw [List.nodup_cons]
      constructor
      · intro hm
        have hc : rest.elem k = true := List.elem_iff.mpr hm
        rw [show rest.contains k = rest.elem k from rfl, hc] at h
        exact Bool.noConfusion h.1
      · exact ih h.2

mutual

def cleanListB : Nat → List Json → Bool
  | _, [] => true
  | 0, _ :: _ => false
  | c + 1, it :: rest => cleanItemB c it && cleanListB c rest

def cleanItemB : Nat → Json → Bool
  | 0, _ => false
  | c + 1, .obj fl =>
      keysNodupB (dKeys fl)
      && (match dGet fl "schema" with
          | some (.obj s) =>
              !(isImportSchema s)
              && (match idOf s with
                  | some sid => !(hasMarker ("#/definitions/" ++ sid))
                  | none => true)
              && (match dGet s "properties" with
                  | some (.obj p) => cleanListB c (p.map Prod.snd)
                  | _ => true)
              && (match dGet s "items" with
                  | some (.obj it) => !(containsKey it "schema") || cleanItemB c (.obj it)
                  | _ => true)
          | _ => true)
      && (match dGet fl "items" with
          | some (.obj it2) => !(containsKey it2 "schema") || cleanItemB c (.obj it2)
          | _ => true)
  | _ + 1, _ => true

end

theorem importInfo_none_of_clean (c : Nat) (it : Json)
    (h : cleanItemB c it = true) : importInfo it = none := by
  obtain ⟨c, rfl⟩ : ∃ c2, c = c2 + 1 := by
    cases c with
    | zero => exact absurd h (by cases it <;> simp [cleanItemB])
    | succ c2 => exact ⟨c2, rfl⟩
  cases it with
  | obj fl =>
      cases hs : dGet fl "schema" with
      | none => simp [importInfo, hs]
      | some v =>
          cases v with
          | obj s =>
              simp only [cleanItemB, hs, Bool.and_eq_true] at h
              exact importInfo_none_of_not_import fl s hs
                (by simpa using h.1.2.1.1.1)
          | null => simp [importInfo, hs]
          | bool b => simp [importInfo, hs]
          | num n => simp [importInfo, hs]
          | str st => simp [importInfo, hs]
          | arr l => simp [importInfo, hs]
  | null => rfl
  | bool b => rfl
  | num n => rfl
  | str s => rfl
  | arr l => rfl

theorem exArray_eq_self (reg : Registry) (fuel level : Nat) (d : JDict)
    (h : (match dGet d "items" with
          | some (.obj it2) => !(containsKey it2 "schema")
          | _ => true) = true) :
    exArray reg fuel level d = (d, []) := by
  unfold exArray
  cases hi : dGet d "items" with
  | none => rfl
  | some v =>
      cases v with
      | obj it2 =>
          simp only [hi, Bool.not_eq_true'] at h
          simp [h]
      | null => rfl
      | bool b => rfl
      | num n => rfl
      | str st => rfl
      | arr l => rfl

theorem exSchemaStep_eq_self (reg : Registry) (fuel level : Nat) (f : JDict)
    (h : ∀ s, dGet f "schema" ≠ some (Json.obj s)) :
    exSchemaStep reg fuel level f = (f, []) := by
  unfold exSchemaStep
  cases hs : dGet f "schema" with
  | none => rfl
  | some v =>
      cases v with
      | obj s => exact absurd hs (h s)
      | null => rfl
      | bool b => rfl
      | num n => rfl
      | str st => rfl
      | arr l => rfl

theorem importInfo_none_of_schema_not_obj (f : JDict)
    (h : ∀ s, dGet f "schema" ≠ some (Json.obj s)) :
    importInfo (.obj f) = none := by
  cases hs : dGet f "schema" with
  | none => simp [importInfo, hs]
  | some v =>
      cases v with
      | obj s => exact absurd hs (h s)
      | null => simp [importInfo, hs]
      | bool b => simp [importInfo, hs]
      | num n => simp [importInfo, hs]
      | str st => simp [importInfo, hs]
      | arr l => simp [importInfo, hs]

theorem exItem_run2_of_parts (reg : Registry) (g level : Nat) (fl : JDict)
    (hstep2 : ∀ h2, exSchemaStep reg h2 level
        (exArray reg g level (exSchemaStep reg g level fl).1).1
      = ((exArray reg g level (exSchemaStep reg g level fl).1).1, []))
    (hout2 : ∀ h2, exArray reg h2 level
        (exArray reg g level (exSchemaStep reg g level fl).1).1
      = ((exArray reg g level (exSchemaStep reg g level fl).1).1, [])) :
    ∀ fuel₂, exItem reg fuel₂ level ((exItem reg (g + 1) level (.obj fl)).1)
      = ((exItem reg (g + 1) level (.obj fl)).1, []) := by
  intro fuel₂
  rw [exItem_obj]
  dsimp only
  cases fuel₂ with
  | zero => rfl
  | succ h2 =>
      rw [exItem_obj, hstep2 h2]
      dsimp only
      rw [hout2 h2]
      rfl

/-- A run of the extractor over clean input (no import-style references,
no hoisted identifier whose reference string would itself contain the
marker, duplicate-free keys) produces output on which any further run is
the identity and hoists nothing. -/
theorem clean_exec (reg : Registry) : ∀ fuel : Nat,
    (∀ level (l : List Json) c, sizeOf l ≤ fuel → cleanListB c l = true →
      ∀ fuel₂, exList reg fuel₂ level ((exList reg fuel level l).1)
        = ((exList reg fuel level l).1, [], false))
    ∧ (∀ level (it : Json) c, sizeOf it ≤ fuel → cleanItemB c it = true →
      importInfo ((exItem reg fuel level it).1) = none
      ∧ ∀ fuel₂, exItem reg fuel₂ level ((exItem reg fuel level it).1)
          = ((exItem reg fuel level it).1, [])) := by
  intro fuel
  induction fuel with
  | zero =>
      constructor
      · intro level l c hsz _
        exact absurd hsz (by have := list_sizeOf_pos l; omega)
      · intro level it c hsz _
        exact absurd hsz (by have := json_sizeOf_pos it; omega)
  | succ g ih =>
      constructor
      · intro level l c hsz hcl
        cases l with
        | nil =>
            intro fuel₂
            cases fuel₂ with
            | zero => rfl
            | succ h2 => rfl
        | cons it rest =>
            obtain ⟨c2, rfl⟩ : ∃ c2, c = c2 + 1 := by
              cases c with
              | zero => exact absurd hcl (by simp [cleanListB])
              | succ c2 => exact ⟨c2, rfl⟩
            simp only [cleanListB, Bool.and_eq_true] at hcl
            have hszit : sizeOf it ≤ g := by
              have h1 := list_sizeOf_pos rest
              simp only [List.cons.sizeOf_spec] at hsz
              omega
            have hszrest : sizeOf rest ≤ g := by
              have h1 := json_sizeOf_pos it
              simp only [List.cons.sizeOf_spec] at hsz
              omega
            have hB := ih.2 level it c2 hszit hcl.1
            have hA := ih.1 level rest c2 hszrest hcl.2
            have himp1 : importInfo it = none := importInfo_none_of_clean c2 it hcl.1
            intro fuel₂
            rw [exList_cons_no_import reg g level it rest himp1]
            dsimp only
            cases fuel₂ with
            | zero => rfl
            | succ h2 =>
                rw [exList_cons_no_import reg h2 level _ _ hB.1]
                rw [hB.2 h2, hA h2]
                simp
      · intro level it c hsz hcl
        obtain ⟨c2, rfl⟩ : ∃ c2, c = c2 + 1 := by
          cases c with
          | zero => exact absurd hcl (by cases it <;> simp [cleanItemB])
          | succ c2 => exact ⟨c2, rfl⟩
        cases it with
        | null =>
            refine ⟨rfl, ?_⟩
            intro fuel₂
            cases fuel₂ with
            | zero => rfl
            | succ h2 => rfl
        | bool b =>
            refine ⟨rfl, ?_⟩
            intro fuel₂
            cases fuel₂ with
            | zero => rfl
            | succ h2 => rfl
        | num n =>
            refine ⟨rfl, ?_⟩
            intro fuel₂
            cases fuel₂ with
            | zero => rfl
            | succ h2 => rfl
        | str st =>
            refine ⟨rfl, ?_⟩
            intro fuel₂
            cases fuel₂ with
            | zero => rfl
            | succ h2 => rfl
        | arr l =>
            refine ⟨rfl, ?_⟩
            intro fuel₂
            cases fuel₂ with
            | zero => rfl
            | succ h2 => rfl
        | obj fl =>
            simp only [cleanItemB, Bool.and_eq_true] at hcl
            obtain ⟨⟨hnd, hsch⟩, hitm⟩ := hcl
            have hndL : (dKeys fl).Nodup := keysNodupB_nodup _ hnd
            have hszfl : sizeOf fl ≤ g := by
              have hq : sizeOf (Json.obj fl) = 1 + sizeOf fl := by simp
              omega
            have hszItems : ∀ it2, dGet fl "items" = some (Json.obj it2) →
                sizeOf (Json.obj it2) + 2 ≤ g := by
              intro it2 he
              have := sizeOf_dGet fl "items" (Json.obj it2) he
              omega
            have harr2 : ∀ d : JDict,
                (match dGet d "items" with
                 | some (.obj it2) => !(containsKey it2 "schema") || cleanItemB c2 (.obj it2)
                 | _ => true) = true →
                (∀ it2, dGet d "items" = some (Json.obj it2) →
                    sizeOf (Json.obj it2) + 2 ≤ g) →
                ∀ fuel₂, exArray reg fuel₂ level (exArray reg g level d).1
                  = ((exArray reg g level d).1, []) := by
              intro d hcln hsz2 fuel₂
              cases hi : dGet d "items" with
              | none =>
                  have h0 : (match dGet d "items" with
                      | some (.obj it2) => !(containsKey it2 "schema")
                      | _ => true) = true := by rw [hi]
                  rw [exArray_eq_self reg g level d h0,
                      exArray_eq_self reg fuel₂ level d h0]
              | some v =>
                  cases v with
                  | null =>
                      have h0 : (match dGet d "items" with
                          | some (.obj it2) => !(containsKey it2 "schema")
                          | _ => true) = true := by rw [hi]
                      rw [exArray_eq_self reg g level d h0,
                          exArray_eq_self reg fuel₂ level d h0]
                  | bool b =>
                      have h0 : (match dGet d "items" with
                          | some (.obj it2) => !(containsKey it2 "schema")
                          | _ => true) = true := by rw [hi]
                      rw [exArray_eq_self reg g level d h0,
                          exArray_eq_self reg fuel₂ level d h0]
                  | num n =>
                      have h0 : (match dGet d "items" with
                          | some (.obj it2) => !(containsKey it2 "schema")
                          | _ => true) = true := by rw [hi]
                      rw [exArray_eq_self reg g level d h0,
                          exArray_eq_self reg fuel₂ level d h0]
                  | str st =>
                      have h0 : (match dGet d "items" with
                          | some (.obj it2) => !(containsKey it2 "schema")
                          | _ => true) = true := by rw [hi]
                      rw [exArray_eq_self reg g level d h0,
                          exArray_eq_self reg fuel₂ level d h0]
                  | arr la =>
                      have h0 : (match dGet d "items" with
                          | some (.obj it2) => !(containsKey it2 "schema")
                          | _ => true) = true := by rw [hi]
                      rw [exArray_eq_self reg g level d h0,
                          exArray_eq_self reg fuel₂ level d h0]
                  | obj it2 =>
                      cases hck : containsKey it2 "schema" with
                      | false =>
                          have h0 : (match dGet d "items" with
                              | some (.obj it2) => !(containsKey it2 "schema")
                              | _ => true) = true := by
                            rw [hi]
                            simp [hck]
                          rw [exArray_eq_self reg g level d h0,
                              exArray_eq_self reg fuel₂ level d h0]
                      | true =>
                          simp only [hi, hck, Bool.not_true, Bool.false_or] at hcln
                          have hszit2 := hsz2 it2 hi
                          have hclean1 : cleanListB (c2 + 1) [Json.obj it2] = true := by
                            simp [cleanListB, hcln]
                          have hszl : sizeOf ([Json.obj it2] : List Json) ≤ g := by
                            simp only [List.cons.sizeOf_spec, List.nil.sizeOf_spec]
                            omega
                          have hAi := ih.1 (level + 1) [Json.obj it2] (c2 + 1) hszl hclean1
                          obtain ⟨y, hy⟩ := exList_singleton_obj reg g (level + 1) it2
                          rw [hy] at hAi
                          have h1 : exArray reg g level d
                              = (dSet d "items" (Json.obj y),
                                 (exList reg g (level + 1) [Json.obj it2]).2.1) := by
                            unfold exArray
                            simp [hi, hck, hy]
                          rw [h1]
                          dsimp only
                          unfold exArray
                          rw [dGet_dSet_same]
                          cases hck2 : containsKey y "schema" with
                          | false => simp [hck2]
                          | true =>
                              simp only [hck2, if_true]
                              rw [hAi fuel₂]
                              simp [dSet_dSet_same]
            by_cases hobj : ∃ s, dGet fl "schema" = some (Json.obj s)
            · obtain ⟨s, hs⟩ := hobj
              simp only [hs, Bool.and_eq_true] at hsch
              obtain ⟨⟨⟨himpS, hidmk⟩, hpropsS⟩, hitmsS⟩ := hsch
              have hImp : isImportSchema s = false := by simpa using himpS
              have hszs : sizeOf s + 4 ≤ sizeOf fl := by
                have h1 := sizeOf_dGet fl "schema" (Json.obj s) hs
                have h2 : sizeOf (Json.obj s) = 1 + sizeOf s := by simp
                omega
              have hP : dGet (exProps reg g level s).1 "items" = dGet s "items"
                  ∧ dGet (exProps reg g level s).1 "$ref" = dGet s "$ref"
                  ∧ dGet (exProps reg g level s).1 "id" = dGet s "id"
                  ∧ ∀ d₁ : JDict,
                      dGet d₁ "properties" = dGet (exProps reg g level s).1 "properties" →
                      ∀ fuel₂, exProps reg fuel₂ level d₁ = (d₁, []) := by
                cases hp : dGet s "properties" with
                | none =>
                    have h1 : exProps reg g level s = (s, []) := by
                      unfold exProps
                      rw [hp]
                    rw [h1]
                    refine ⟨rfl, rfl, rfl, ?_⟩
                    intro d₁ hd₁ fuel₂
                    dsimp only at hd₁
                    rw [hp] at hd₁
                    unfold exProps
                    rw [hd₁]
                | some v =>
                    cases v with
                    | obj p =>
                        simp only [hp] at hpropsS
                        have hszp : sizeOf (p.map Prod.snd) ≤ g := by
                          have h1 := sizeOf_dGet s "properties" (Json.obj p) hp
                          have h2 := sizeOf_map_snd p
                          have h3 : sizeOf (Json.obj p) = 1 + sizeOf p := by simp
                          omega
                        have hAp := ih.1 (level + 1) (p.map Prod.snd) c2 hszp hpropsS
                        have hlen : (exList reg g (level + 1) (p.map Prod.snd)).1.length
                            = p.length := by
                          rw [exList_length]
                          exact List.length_map p Prod.snd
                        have h1 : exProps reg g level s
                            = (dSet s "properties"
                                (.obj (rekey p (exList reg g (level + 1) (p.map Prod.snd)).1)),
                               (exList reg g (level + 1) (p.map Prod.snd)).2.1) := by
                          unfold exProps
                          simp only [hp]
                        rw [h1]
                        dsimp only
                        refine ⟨dGet_dSet_diff _ _ _ _ (by decide),
                                dGet_dSet_diff _ _ _ _ (by decide),
                                dGet_dSet_diff _ _ _ _ (by decide), ?_⟩
                        intro d₁ hd₁ fuel₂
                        rw [dGet_dSet_same] at hd₁
                        unfold exProps
                        simp only [hd₁]
                        rw [map_snd_rekey p _ hlen, hAp fuel₂]
                        dsimp only
                        rw [rekey_rekey, dSet_eq_of_dGet d₁ "properties" _ hd₁]
                    | null =>
                        have h1 : exProps reg g level s = (s, []) := by
                          unfold exProps
                          rw [hp]
                        rw [h1]
                        refine ⟨rfl, rfl, rfl, ?_⟩
                        intro d₁ hd₁ fuel₂
                        dsimp only at hd₁
                        rw [hp] at hd₁
                        unfold exProps
                        rw [hd₁]
                    | bool b =>
                        have h1 : exProps reg g level s = (s, []) := by
                          unfold exProps
                          rw [hp]
                        rw [h1]
                        refine ⟨rfl, rfl, rfl, ?_⟩
                        intro d₁ hd₁ fuel₂
                        dsimp only at hd₁
                        rw [hp] at hd₁
                        unfold exProps
                        rw [hd₁]
                    | num n =>
                        have h1 : exProps reg g level s = (s, []) := by
                          unfold exProps
                          rw [hp]
                        rw [h1]
                        refine ⟨rfl, rfl, rfl, ?_⟩
                        intro d₁ hd₁ fuel₂
                        dsimp only at hd₁
                        rw [hp] at hd₁
                        unfold exProps
                        rw [hd₁]
                    | str st =>
                        have h1 : exProps reg g level s = (s, []) := by
                          unfold exProps
                          rw [hp]
                        rw [h1]
                        refine ⟨rfl, rfl, rfl, ?_⟩
                        intro d₁ hd₁ fuel₂
                        dsimp only at hd₁
                        rw [hp] at hd₁
                        unfold exProps
                        rw [hd₁]
                    | arr la =>
                        have h1 : exProps reg g level s = (s, []) := by
                          unfold exProps
                          rw [hp]
                        rw [h1]
                        refine ⟨rfl, rfl, rfl, ?_⟩
                        intro d₁ hd₁ fuel₂
                        dsimp only at hd₁
                        rw [hp] at hd₁
                        unfold exProps
                        rw [hd₁]
              have hitmA : (match dGet (exProps reg g level s).1 "items" with
                  | some (.obj it2) => !(containsKey it2 "schema") || cleanItemB c2 (.obj it2)
                  | _ => true) = true := by
                rw [hP.1]
                exact hitmsS
              have hszA : ∀ it2, dGet (exProps reg g level s).1 "items" = some (Json.obj it2) →
                  sizeOf (Json.obj it2) + 2 ≤ g := by
                intro it2 he
                rw [hP.1] at he
                have := sizeOf_dGet s "items" (Json.obj it2) he
                omega
              have hB2 := harr2 (exProps reg g level s).1 hitmA hszA
              have hsF : ∀ k, k ≠ "items" →
                  dGet (exArray reg g level (exProps reg g level s).1).1 k
                    = dGet (exProps reg g level s).1 k :=
                fun k hk => exArray_fst_get reg g level _ k hk
              cases hid : idOf s with
              | none =>
                  have hstep1 : exSchemaStep reg g level fl
                      = (dSet fl "schema"
                            (.obj (exArray reg g level (exProps reg g level s).1).1),
                         (exProps reg g level s).2
                           ++ (exArray reg g level (exProps reg g level s).1).2) := by
                    unfold exSchemaStep
                    simp only [hs, hid]
                  have hgS1 : dGet (dSet fl "schema"
                        (.obj (exArray reg g level (exProps reg g level s).1).1)) "items"
                      = dGet fl "items" := dGet_dSet_diff _ _ _ _ (by decide)
                  have hitmS1 : (match dGet (dSet fl "schema"
                        (.obj (exArray reg g level (exProps reg g level s).1).1)) "items" with
                      | some (.obj it2) => !(containsKey it2 "schema") || cleanItemB c2 (.obj it2)
                      | _ => true) = true := by
                    rw [hgS1]
                    exact hitm
                  have hszS1 : ∀ it2, dGet (dSet fl "schema"
                        (.obj (exArray reg g level (exProps reg g level s).1).1)) "items"
                        = some (Json.obj it2) → sizeOf (Json.obj it2) + 2 ≤ g := by
                    intro it2 he
                    rw [hgS1] at he
                    exact hszItems it2 he
                  have hOs : dGet (exArray reg g level (dSet fl "schema"
                        (.obj (exArray reg g level (exProps reg g level s).1).1))).1 "schema"
                      = some (.obj (exArray reg g level (exProps reg g level s).1).1) := by
                    rw [exArray_fst_get reg g level _ "schema" (by decide), dGet_dSet_same]
                  refine ⟨?_, exItem_run2_of_parts reg g level fl ?_ ?_⟩
                  · rw [exItem_obj]
                    dsimp only
                    rw [hstep1]
                    dsimp only
                    refine importInfo_none_of_not_import _ _ hOs ?_
                    have h2r : dGet (exArray reg g level (exProps reg g level s).1).1 "$ref"
                        = dGet s "$ref" := by
                      rw [hsF "$ref" (by decide), hP.2.1]
                    unfold isImportSchema at hImp ⊢
                    rw [h2r]
                    exact hImp
                  · intro h2
                    rw [hstep1]
                    dsimp only
                    unfold exSchemaStep
                    simp only [hOs]
                    have hprops2 : exProps reg h2 level
                          (exArray reg g level (exProps reg g level s).1).1
                        = ((exArray reg g level (exProps reg g level s).1).1, []) := by
                      apply hP.2.2.2
                      exact hsF "properties" (by decide)
                    rw [hprops2]
                    dsimp only
                    rw [hB2 h2]
                    dsimp only
                    have hidB : idOf (exArray reg g level (exProps reg g level s).1).1
                        = none := by
                      unfold idOf at hid ⊢
                      rw [hsF "id" (by decide), hP.2.2.1]
                      exact hid
                    simp only [hidB]
                    rw [dSet_eq_of_dGet _ _ _ hOs]
                    rfl
                  · intro h2
                    rw [hstep1]
                    dsimp only
                    exact harr2 _ hitmS1 hszS1 h2
              | some sid =>
                  simp only [hid] at hidmk
                  have hMk : hasMarker ("#/definitions/" ++ sid) = false := by
                    simpa using hidmk
                  cases level with
                  | zero =>
                      have hstep1 : exSchemaStep reg g 0 fl
                          = (dSet fl "schema"
                                (.obj [("$ref", .str ("#/definitions/" ++ sid))]),
                             Json.obj (exArray reg g 0 (exProps reg g 0 s).1).1
                               :: ((exProps reg g 0 s).2
                                    ++ (exArray reg g 0 (exProps reg g 0 s).1).2)) := by
                        unfold exSchemaStep
                        simp only [hs, hid]
                        rfl
                      have hgS1 : dGet (dSet fl "schema"
                            (.obj [("$ref", Json.str ("#/definitions/" ++ sid))])) "items"
                          = dGet fl "items" := dGet_dSet_diff _ _ _ _ (by decide)
                      have hitmS1 : (match dGet (dSet fl "schema"
                            (.obj [("$ref", Json.str ("#/definitions/" ++ sid))])) "items" with
                          | some (.obj it2) =>
                              !(containsKey it2 "schema") || cleanItemB c2 (.obj it2)
                          | _ => true) = true := by
                        rw [hgS1]
                        exact hitm
                      have hszS1 : ∀ it2, dGet (dSet fl "schema"
                            (.obj [("$ref", Json.str ("#/definitions/" ++ sid))])) "items"
                            = some (Json.obj it2) → sizeOf (Json.obj it2) + 2 ≤ g := by
                        intro it2 he
                        rw [hgS1] at he
                        exact hszItems it2 he
                      have hOs : dGet (exArray reg g 0 (dSet fl "schema"
                            (.obj [("$ref", Json.str ("#/definitions/" ++ sid))]))).1 "schema"
                          = some (.obj [("$ref", Json.str ("#/definitions/" ++ sid))]) := by
                        rw [exArray_fst_get reg g 0 _ "schema" (by decide), dGet_dSet_same]
                      refine ⟨?_, exItem_run2_of_parts reg g 0 fl ?_ ?_⟩
                      · rw [exItem_obj]
                        dsimp only
                        rw [hstep1]
                        dsimp only
                        have hr : dGet [("$ref", Json.str ("#/definitions/" ++ sid))] "$ref"
                            = some (Json.str ("#/definitions/" ++ sid)) := by
                          simp [dGet]
                        simp only [importInfo, hOs, hr, hMk]
                        rfl
                      · intro h2
                        rw [hstep1]
                        dsimp only
                        unfold exSchemaStep
                        simp only [hOs]
                        have hrp : dGet [("$ref", Json.str ("#/definitions/" ++ sid))]
                            "properties" = none := by simp [dGet]
                        have hprops2 : exProps reg h2 0
                              [("$ref", Json.str ("#/definitions/" ++ sid))]
                            = ([("$ref", Json.str ("#/definitions/" ++ sid))], []) := by
                          unfold exProps
                          rw [hrp]
                        rw [hprops2]
                        dsimp only
                        have hri : dGet [("$ref", Json.str ("#/definitions/" ++ sid))]
                            "items" = none := by simp [dGet]
                        have harr0 : exArray reg h2 0
                              [("$ref", Json.str ("#/definitions/" ++ sid))]
                            = ([("$ref", Json.str ("#/definitions/" ++ sid))], []) := by
                          unfold exArray
                          rw [hri]
                        rw [harr0]
                        dsimp only
                        have hidr : idOf [("$ref", Json.str ("#/definitions/" ++ sid))]
                            = none := by simp [idOf, dGet]
                        simp only [hidr]
                        rw [dSet_eq_of_dGet _ _ _ hOs]
                        rfl
                      · intro h2
                        rw [hstep1]
                        dsimp only
                        exact harr2 _ hitmS1 hszS1 h2
                  | succ lv =>
                      have hstep1 : exSchemaStep reg g (lv + 1) fl
                          = (dDel (dSet fl "$ref"
                                (.str ("#/definitions/" ++ sid))) "schema",
                             Json.obj (exArray reg g (lv + 1) (exProps reg g (lv + 1) s).1).1
                               :: ((exProps reg g (lv + 1) s).2
                                    ++ (exArray reg g (lv + 1)
                                          (exProps reg g (lv + 1) s).1).2)) := by
                        unfold exSchemaStep
                        simp only [hs, hid]
                        rfl
                      have hgS1 : dGet (dDel (dSet fl "$ref"
                            (Json.str ("#/definitions/" ++ sid))) "schema") "items"
                          = dGet fl "items" := by
                        rw [dGet_dDel_diff _ _ _ (by decide),
                            dGet_dSet_diff _ _ _ _ (by decide)]
                      have hitmS1 : (match dGet (dDel (dSet fl "$ref"
                            (Json.str ("#/definitions/" ++ sid))) "schema") "items" with
                          | some (.obj it2) =>
                              !(containsKey it2 "schema") || cleanItemB c2 (.obj it2)
                          | _ => true) = true := by
                        rw [hgS1]
                        exact hitm
                      have hszS1 : ∀ it2, dGet (dDel (dSet fl "$ref"
                            (Json.str ("#/definitions/" ++ sid))) "schema") "items"
                            = some (Json.obj it2) → sizeOf (Json.obj it2) + 2 ≤ g := by
                        intro it2 he
                        rw [hgS1] at he
                        exact hszItems it2 he
                      have hnd2 : (dKeys (dSet fl "$ref"
                            (Json.str ("#/definitions/" ++ sid)))).Nodup :=
                        dKeys_dSet_nodup fl "$ref" _ hndL
                      have hOs : dGet (exArray reg g (lv + 1) (dDel (dSet fl "$ref"
                            (Json.str ("#/definitions/" ++ sid))) "schema")).1 "schema"
                          = none := by
                        rw [exArray_fst_get reg g (lv + 1) _ "schema" (by decide)]
                        exact dGet_dDel_same _ "schema" hnd2
                      have hno2 : ∀ s₂, dGet (exArray reg g (lv + 1) (dDel (dSet fl "$ref"
                            (Json.str ("#/definitions/" ++ sid))) "schema")).1 "schema"
                          ≠ some (Json.obj s₂) := by
                        intro s₂ he
                        rw [hOs] at he
                        cases he
                      refine ⟨?_, exItem_run2_of_parts reg g (lv + 1) fl ?_ ?_⟩
                      · rw [exItem_obj]
                        dsimp only
                        rw [hstep1]
                        dsimp only
                        exact importInfo_none_of_schema_not_obj _ hno2
                      · intro h2
                        rw [hstep1]
                        dsimp only
                        exact exSchemaStep_eq_self reg h2 (lv + 1) _ hno2
                      · intro h2
                        rw [hstep1]
                        dsimp only
                        exact harr2 _ hitmS1 hszS1 h2
            · have hno : ∀ s, dGet fl "schema" ≠ some (Json.obj s) :=
                fun s h => hobj ⟨s, h⟩
              have hno2 : ∀ s, dGet (exArray reg g level fl).1 "schema"
                  ≠ some (Json.obj s) := by
                intro s
                rw [exArray_fst_get reg g level fl "schema" (by decide)]
                exact hno s
              have hstep1 : exSchemaStep reg g level fl = (fl, []) :=
                exSchemaStep_eq_self reg g level fl hno
              refine ⟨?_, exItem_run2_of_parts reg g level fl ?_ ?_⟩
              · rw [exItem_obj]
                dsimp only
                rw [hstep1]
                dsimp only
                exact importInfo_none_of_schema_not_obj _ hno2
              · intro h2
                rw [hstep1]
                dsimp only
                exact exSchemaStep_eq_self reg h2 level _ hno2
              · intro h2
                rw [hstep1]
                dsimp only
                exact harr2 fl hitm hszItems h2

/-- An entry list on which extraction is not idempotent: the hoisted
identifier `import/x` leaves a `$ref` of `#/definitions/import/x` behind,
which a second run mistakes for an import-style reference. -/
def ce4List : List Json :=
  [Json.obj [("schema", Json.obj [("id", Json.str "import/x")])]]

/-- **C4, counterexample.**  Running the extractor a second time on the
output of a first run can hoist a fresh object and mutate the entries
again: a schema whose identifier contains the `import/` marker is
rewritten to a reference that the second run resolves through the
dynamic-import branch. -/
theorem extract_idempotence_counterexample :
    (extract_definitions wReg 3 ((extract_definitions wReg 3 ce4List).1)).2 ≠ []
    ∧ (extract_definitions wReg 3 ((extract_definitions wReg 3 ce4List).1)).1
        ≠ (extract_definitions wReg 3 ce4List).1 := by
  constructor
  · have e1 : (extract_definitions wReg 3 ((extract_definitions wReg 3 ce4List).1)).2
        = [Json.obj [("type", Json.str "object"), ("id", Json.str "x")]] := rfl
    intro h
    rw [e1] at h
    simp at h
  · have e1 : (extract_definitions wReg 3 ((extract_definitions wReg 3 ce4List).1)).1
        = [Json.obj [("schema", Json.obj [("$ref", Json.str "#/definitions/x")])]] := rfl
    have e2 : (extract_definitions wReg 3 ce4List).1
        = [Json.obj [("schema", Json.obj
            [("$ref", Json.str "#/definitions/import/x")])]] := rfl
    intro h
    rw [e1, e2] at h
    simp at h

/-- **C4** (amended).  Extraction is idempotent on its own output for
clean entry lists: when no schema carries an import-style `$ref` and no
hoisted identifier itself contains the `import/` marker (and mapping keys
are duplicate-free), a second run of the extractor on the first run's
mutated entries hoists nothing and performs no further mutation.  Without
the marker proviso the property fails (see the counterexample): an
identifier containing `import/` makes the first run write a reference the
second run resolves as an import. -/
theorem extract_clean_idempotent (reg : Registry) (fuel₁ fuel₂ c : Nat)
    (l : List Json) (level : Nat)
    (hsz : sizeOf l ≤ fuel₁) (hcl : cleanListB c l = true) :
    extract_definitions reg fuel₂ ((extract_definitions reg fuel₁ l level).1) level
      = ((extract_definitions reg fuel₁ l level).1, []) := by
  have h := (clean_exec reg fuel₁).1 level l c hsz hcl fuel₂
  simp only [extract_definitions]
  rw [h]

/-- A representative clean parameter list: one body parameter whose
schema hoists as `Item`. -/
def ce4Clean : List Json :=
  [Json.obj [("in", Json.str "body"),
    ("schema", Json.obj [("id", Json.str "Item"),
      ("properties", Json.obj
        [("name", Json.obj [("type", Json.str "string")])])])]]

theorem extract_clean_idempotent_witness :
    sizeOf ce4Clean ≤ 100000 ∧ cleanListB 5 ce4Clean = true
    ∧ extract_definitions wReg 9 ((extract_definitions wReg 100000 ce4Clean 0).1) 0
        = ((extract_definitions wReg 100000 ce4Clean 0).1, []) :=
  ⟨by decide, by decide,
   extract_clean_idempotent wReg 100000 9 5 ce4Clean 0 (by decide) (by decide)⟩
